import Mathlib

/-!
# Chunk Hunter (`chunks.go`): embedding and verified properties

A Go string is modelled as the list of its code points (`GoString`), that is,
as valid UTF-8 text; byte offsets of the source become code point offsets, which
select the same substrings because every match of a valid UTF-8 needle in valid
UTF-8 text starts and ends on a code point boundary.  `len` is the only place
where the byte count is observable and is modelled by `utf8Len`.

Go `int` values (counts, lengths) are modelled as `Nat`; every such value is
bounded by the size of the texts held in memory, far below `2^63`.

The case tables of the `unicode` package (`unicode.ToLower`, the orbits of
`unicode.SimpleFold`) are a parameter, `CaseTables`; `asciiTables` gives their
values on ASCII and is used only on ASCII inputs.
-/

set_option maxRecDepth 20000

namespace ChunkHunter

/-! ## Strings -/

/-- A Go string holding valid UTF-8, as its code points. -/
abbrev GoString := List Char

/-- The case tables of package `unicode` used by the program. -/
structure CaseTables where
  /-- `unicode.ToLower`. -/
  toLower : Char → Char
  /-- `foldOrbit r c`: iterating `unicode.SimpleFold` from `r` reaches `c` before
  coming back to `r` (so `c ≠ r`). -/
  foldOrbit : Char → Char → Bool

/-- ASCII upper case letter to lower case, other code points unchanged. -/
def asciiToLower (c : Char) : Char :=
  if 'A'.toNat ≤ c.toNat ∧ c.toNat ≤ 'Z'.toNat then Char.ofNat (c.toNat + 32) else c

/-- ASCII lower case letter to upper case, other code points unchanged. -/
def asciiToUpper (c : Char) : Char :=
  if 'a'.toNat ≤ c.toNat ∧ c.toNat ≤ 'z'.toNat then Char.ofNat (c.toNat - 32) else c

/-- The `SimpleFold` orbit of an ASCII rune `r`, without `r` itself: the other
case of a letter, and for `k`/`s` also the Kelvin sign U+212A / long s U+017F. -/
def asciiFoldOrbit (r c : Char) : Bool :=
  (c ≠ r ∧ (c = asciiToLower r ∨ c = asciiToUpper r)) ∨
  ((r = 'k' ∨ r = 'K') ∧ c = Char.ofNat 0x212A) ∨
  ((r = 's' ∨ r = 'S') ∧ c = Char.ofNat 0x017F)

/-- The case tables restricted to ASCII runes. -/
def asciiTables : CaseTables where
  toLower := asciiToLower
  foldOrbit := asciiFoldOrbit

/-- `unicode.IsSpace`: the Unicode White_Space property. -/
def isSpace (c : Char) : Bool :=
  let r := c.toNat
  (0x09 ≤ r ∧ r ≤ 0x0D) ∨ r = 0x20 ∨ r = 0x85 ∨ r = 0xA0 ∨ r = 0x1680 ∨
  (0x2000 ≤ r ∧ r ≤ 0x200A) ∨ r = 0x2028 ∨ r = 0x2029 ∨ r = 0x202F ∨
  r = 0x205F ∨ r = 0x3000

/-- `len(s)`: the number of bytes of the UTF-8 encoding. -/
def utf8Len (s : GoString) : Nat := (s.map Char.utf8Size).sum

/-- `strings.ToLower`. -/
def ToLower (t : CaseTables) (s : GoString) : GoString := s.map t.toLower

/-- `strings.TrimSpace`: leading and trailing white space removed. -/
def TrimSpace (s : GoString) : GoString :=
  ((s.dropWhile isSpace).reverse.dropWhile isSpace).reverse

/-- `strings.HasSuffix`. -/
def HasSuffix (s suffix : GoString) : Bool := suffix.isSuffixOf s

/-- `strings.Index`: offset of the first instance of `substr` in `s`
(`none` for Go's `-1`). -/
def Index : GoString → GoString → Option Nat
  | [], substr => if substr = [] then some 0 else none
  | c :: s, substr =>
    if substr.isPrefixOf (c :: s) then some 0 else (Index s substr).map (· + 1)

/-- `strings.Contains`. -/
def Contains (s substr : GoString) : Bool := (Index s substr).isSome

/-- The loop of `strings.Count` for a non-empty `substr`:
`for { i := Index(s, substr); if i == -1 { return n }; n++; s = s[i+len(substr):] }`. -/
def countLoop (substr : GoString) : Nat → GoString → Nat
  | 0, _ => 0
  | fuel + 1, s =>
    match Index s substr with
    | none => 0
    | some i => 1 + countLoop substr fuel (s.drop (i + substr.length))

/-- `strings.Count`: the number of non-overlapping instances of `substr` in `s`;
for the empty `substr`, one more than the number of code points. -/
def Count (s substr : GoString) : Nat :=
  if substr = [] then s.length + 1 else countLoop substr (s.length + 1) s

/-- The loop of `strings.genSplit`, run at most `n` times:
`m := Index(s, sep); if m < 0 { break }; a[i] = s[:m]; s = s[m+len(sep):]`. -/
def splitLoop (sep : GoString) : Nat → GoString → List GoString
  | 0, s => [s]
  | n + 1, s =>
    match Index s sep with
    | none => [s]
    | some m => s.take m :: splitLoop sep n (s.drop (m + sep.length))

/-- `strings.Split(s, sep)`: `Count(s, sep) + 1` pieces; an empty `sep` splits
after each code point. -/
def Split (s sep : GoString) : List GoString :=
  if sep = [] then s.map (fun c => [c]) else splitLoop sep (Count s sep) s

/-- The loop of `strings.Replace` for a non-empty `old`, run `n` times. -/
def replaceLoop (old new : GoString) : Nat → GoString → GoString
  | 0, s => s
  | n + 1, s =>
    match Index s old with
    | none => s
    | some j => s.take j ++ new ++ replaceLoop old new n (s.drop (j + old.length))

/-- `strings.Replace(s, old, new, -1)` for a non-empty `old`: every
non-overlapping instance replaced. -/
def ReplaceAll (s old new : GoString) : GoString :=
  if old = new then s else replaceLoop old new (Count s old) s

/-- The loop of `strings.FieldsFunc(s, unicode.IsSpace)`; `cur` is the span
that is open, empty when none is. -/
def fieldsLoop : GoString → GoString → List GoString
  | [], cur => if cur = [] then [] else [cur]
  | c :: s, cur =>
    if isSpace c then
      if cur = [] then fieldsLoop s [] else cur :: fieldsLoop s []
    else fieldsLoop s (cur ++ [c])

/-- `strings.Fields`: the maximal runs of code points that are not white space. -/
def Fields (s : GoString) : List GoString := fieldsLoop s []

/-- `strconv.Itoa` on a non-negative integer. -/
def Itoa (n : Nat) : GoString := (Nat.repr n).toList

/-! ## Package `regexp`

The fragment of the RE2 syntax that is modelled: the flag group `(?i)` at the
start of the expression, literal runes, `.`, groups `( )`, alternation `|` and
the repetition operators `* + ?` (with the lazy marker `?`).  For this
fragment the parser below decides whether `regexp.Compile` returns an error.
Of the expressions that compile, the matcher covers the concatenations of
literal runes and `.`; for every other expression the model answers
`unmodelled` and claims nothing.
-/

/-- One instruction of a compiled concatenation. -/
inductive Item where
  /-- A literal rune (`OpLiteral`). -/
  | lit (r : Char)
  /-- The dot outside `(?s)` (`OpAnyCharNotNL`). -/
  | anyNotNL
  deriving DecidableEq, Repr

/-- What the parser knows about an expression on its stack. -/
inductive Expr where
  /-- A concatenation of literals and dots; `flat []` is `OpEmptyMatch`. -/
  | flat (items : List Item)
  /-- A character class made by merging single-rune alternatives. -/
  | cls
  /-- Any other expression (group, alternation, repetition, `OpNoMatch`). -/
  | other
  deriving DecidableEq, Repr

/-- An entry of the parser stack: an expression or one of the pseudo-operators
`opLeftParen`, `opVerticalBar`. -/
inductive Entry where
  | re (e : Expr)
  | leftParen
  | verticalBar
  deriving DecidableEq, Repr

/-- `re.Op < opPseudo`. -/
def Entry.isExpr : Entry → Bool
  | .re _ => true
  | _ => false

/-- `isCharClass`: a single-rune literal, a character class or a dot. -/
def isCharClass : Entry → Bool
  | .re (.flat [_]) => true
  | .re .cls => true
  | _ => false

/-- `parser.collapse(subs, OpConcat)`; `subs` in source order. -/
def collapseConcat : List Entry → Expr
  | [] => .flat []
  | [.re e] => e
  | .re (.flat xs) :: rest =>
    match collapseConcat rest with
    | .flat ys => .flat (xs ++ ys)
    | _ => .other
  | _ => .other

/-- `parser.concat`: the expressions above the topmost pseudo-operator become
one concatenation.  The stack is kept with its top first. -/
def concat (stack : List Entry) : List Entry :=
  .re (collapseConcat (stack.takeWhile Entry.isExpr).reverse) ::
    stack.dropWhile Entry.isExpr

/-- `parser.alternate`: the expressions above the topmost pseudo-operator
become one alternation (`OpNoMatch` when there is none, the expression itself
when there is one). -/
def alternate (stack : List Entry) : List Entry :=
  (match stack.takeWhile Entry.isExpr with
    | [e] => e
    | _ => .re .other) :: stack.dropWhile Entry.isExpr

/-- `parser.swapVerticalBar`: `none` for Go's `false`; otherwise the new stack,
which has the vertical bar on top. -/
def swapVerticalBar : List Entry → Option (List Entry)
  | re1 :: .verticalBar :: re3 :: rest =>
    if isCharClass re1 ∧ isCharClass re3 then
      some (.verticalBar :: .re .cls :: rest)
    else some (.verticalBar :: re1 :: re3 :: rest)
  | [re1, .verticalBar] => some [.verticalBar, re1]
  | _ => none

/-- `parser.parseVerticalBar`. -/
def parseVerticalBar (stack : List Entry) : List Entry :=
  match swapVerticalBar (concat stack) with
  | some st => st
  | none => .verticalBar :: concat stack

/-- The common start of `parseRightParen` and of the end of `parse`:
`p.concat(); if p.swapVerticalBar() { pop }; p.alternate()`. -/
def closeAlternation (stack : List Entry) : List Entry :=
  match swapVerticalBar (concat stack) with
  | some st => alternate st.tail
  | none => alternate (concat stack)

/-- `parser.parseRightParen`; `none` is `ErrUnexpectedParen`. -/
def parseRightParen (stack : List Entry) : Option (List Entry) :=
  match closeAlternation stack with
  | _ :: .leftParen :: rest => some (.re .other :: rest)
  | _ => none

/-- The value of `lastRepeat` in the loop of `parse`, and whether the lazy
marker `?` may still follow the operator. -/
inductive LastRepeat where
  | none
  | op
  | opLazy
  deriving DecidableEq, Repr

/-- `parser.repeat` past the `lastRepeat` test; `none` is
`ErrMissingRepeatArgument`. -/
def repeatOp : List Entry → Option (List Entry)
  | .re _ :: rest => some (.re .other :: rest)
  | _ => none

/-- The result of `regexp.Compile` in the model. -/
inductive Compiled where
  /-- The error is `nil`; the program matches the concatenation `items`,
  with case folding when `foldCase` is set. -/
  | ok (foldCase : Bool) (items : List Item)
  /-- A non-nil error; the returned `*Regexp` is `nil`. -/
  | error
  /-- The expression is outside the modelled fragment. -/
  | unmodelled
  deriving DecidableEq, Repr

/-- The loop of `syntax.parse` over the runes of the expression, and its end. -/
def parseLoop (foldCase : Bool) : List Char → List Entry → LastRepeat → Compiled
  | [], stack, _ =>
    match closeAlternation stack with
    | [.re (.flat items)] => .ok foldCase items
    | [.re _] => .unmodelled
    | _ => .error
  | c :: t, stack, last =>
    if c = '(' then parseLoop foldCase t (.leftParen :: stack) .none
    else if c = '|' then parseLoop foldCase t (parseVerticalBar stack) .none
    else if c = ')' then
      match parseRightParen stack with
      | some st => parseLoop foldCase t st .none
      | none => .error
    else if c = '.' then parseLoop foldCase t (.re (.flat [.anyNotNL]) :: stack) .none
    else if c = '*' ∨ c = '+' ∨ c = '?' then
      if c = '?' ∧ last = .op then parseLoop foldCase t stack .opLazy
      else if last ≠ .none then .error
      else
        match repeatOp stack with
        | some st => parseLoop foldCase t st .op
        | none => .error
    else parseLoop foldCase t (.re (.flat [.lit c]) :: stack) .none

/-- Runes whose syntax is not modelled: escapes, classes, counted repetition and
the anchors. -/
def unmodelledRune (c : Char) : Bool :=
  c = '\\' ∨ c = '[' ∨ c = '{' ∨ c = '^' ∨ c = '$'

/-- Whether the expression holds `(?`, the start of a flag group. -/
def hasFlagGroup : List Char → Bool
  | '(' :: '?' :: _ => true
  | _ :: t => hasFlagGroup t
  | [] => false

/-- `regexp.Compile(expr)`. -/
def regexpCompile (expr : GoString) : Compiled :=
  let foldCase := "(?i)".toList.isPrefixOf expr
  let body := if foldCase then expr.drop 4 else expr
  if body.any unmodelledRune ∨ hasFlagGroup body then .unmodelled
  else parseLoop foldCase body [] .none

/-- Whether an instruction matches the rune `c` (`Inst.MatchRunePos`). -/
def Item.matchRune (t : CaseTables) (foldCase : Bool) : Item → Char → Bool
  | .lit r, c => c = r ∨ (foldCase ∧ t.foldOrbit r c)
  | .anyNotNL, c => c ≠ '\n'

/-- Whether the program matches a leading part of `s`. -/
def matchHere (t : CaseTables) (foldCase : Bool) : List Item → GoString → Bool
  | [], _ => true
  | _ :: _, [] => false
  | i :: is, c :: s => i.matchRune t foldCase c && matchHere t foldCase is s

/-- The leftmost match in `s`, which is the part of the input from offset `pos`
on: its start and end offsets in the input. -/
def findFrom (t : CaseTables) (foldCase : Bool) (items : List Item) :
    GoString → Nat → Option (Nat × Nat)
  | [], pos => if matchHere t foldCase items [] then some (pos, pos + items.length) else none
  | c :: s, pos =>
    if matchHere t foldCase items (c :: s) then some (pos, pos + items.length)
    else findFrom t foldCase items s (pos + 1)

/-- `re.doExecute(nil, nil, src, pos, 2, nil)`: the leftmost match starting at
or after `pos`. -/
def doExecute (t : CaseTables) (foldCase : Bool) (items : List Item) (src : GoString)
    (pos : Nat) : Option (Nat × Nat) :=
  findFrom t foldCase items (src.drop pos) pos

/-- The loop `for searchPos <= endPos` of `Regexp.replaceAll`, with the copy of
the text after the last match that follows it. -/
def replaceAllLoop (t : CaseTables) (foldCase : Bool) (items : List Item) (src : GoString)
    (repl : GoString → GoString) : Nat → Nat → Nat → GoString → GoString
  | 0, lastMatchEnd, _, buf => buf ++ src.drop lastMatchEnd
  | fuel + 1, lastMatchEnd, searchPos, buf =>
    if searchPos ≤ src.length then
      match doExecute t foldCase items src searchPos with
      | none => buf ++ src.drop lastMatchEnd
      | some (a0, a1) =>
        let buf1 := buf ++ (src.drop lastMatchEnd).take (a0 - lastMatchEnd)
        let buf2 :=
          if a1 > lastMatchEnd ∨ a0 = 0 then buf1 ++ repl ((src.drop a0).take (a1 - a0))
          else buf1
        let width := if searchPos < src.length then 1 else 0
        let searchPos1 :=
          if searchPos + width > a1 then searchPos + width
          else if searchPos + 1 > a1 then searchPos + 1
          else a1
        replaceAllLoop t foldCase items src repl fuel a1 searchPos1 buf2
    else buf ++ src.drop lastMatchEnd

/-- `re.ReplaceAllStringFunc(src, repl)` for a compiled concatenation.  The
search position grows in every round and the loop ends once it passes
`len(src)`, so `len(src) + 2` rounds are enough. -/
def ReplaceAllStringFunc (t : CaseTables) (foldCase : Bool) (items : List Item)
    (src : GoString) (repl : GoString → GoString) : GoString :=
  replaceAllLoop t foldCase items src repl (src.length + 2) 0 0 []

/-! ## `float64` and `strconv.FormatFloat`

Only non-negative values arise.  A finite value is kept as an exact fraction
`num / den`; every operation rounds its exact result to the nearest value with
a 53 bit significand, ties to even.  The exponent range is not modelled: the
operands are 64 bit integers and the constant 100, whose quotients and
products are normal numbers.
-/

/-- A non-negative `float64` value. -/
inductive Float64 where
  | nan
  | posInf
  | fin (num den : Nat)
  deriving DecidableEq, Repr

/-- The number of binary digits of `n`, computed with `fuel` halvings. -/
def bitLenAux : Nat → Nat → Nat
  | 0, _ => 0
  | fuel + 1, n => if n = 0 then 0 else 1 + bitLenAux fuel (n / 2)

/-- The number of binary digits of `n`. -/
def bitLen (n : Nat) : Nat := bitLenAux n n

/-- `n / d` rounded to the nearest integer, ties to even. -/
def roundHalfEven (n d : Nat) : Nat :=
  if 2 * (n % d) > d ∨ (2 * (n % d) = d ∧ (n / d) % 2 = 1) then n / d + 1 else n / d

/-- The fraction `num / den` (`den > 0`) rounded to `float64`: it is scaled by a
power of two into `[2^52, 2^53)`, rounded to an integer, and scaled back. -/
def roundFloat64 (num den : Nat) : Float64 :=
  if num = 0 then .fin 0 1
  else
    let k := bitLen num
    let l := bitLen den
    -- `up` and `down`: the scaled value is `num * 2^down / (den * 2^up)`
    let up := k - (l + 52)
    let down0 := (l + 52) - k
    let down :=
      if (num * 2 ^ down0) / (den * 2 ^ up) ≥ 2 ^ 52 then down0 else down0 + 1
    let m := roundHalfEven (num * 2 ^ down) (den * 2 ^ up)
    .fin (m * 2 ^ up) (2 ^ down)

/-- The conversion `float64(n)` of a non-negative `int`. -/
def Float64.ofInt (n : Nat) : Float64 := roundFloat64 n 1

/-- The quotient `x / y`. -/
def Float64.div : Float64 → Float64 → Float64
  | .nan, _ => .nan
  | _, .nan => .nan
  | .posInf, .posInf => .nan
  | .posInf, .fin _ _ => .posInf
  | .fin _ _, .posInf => .fin 0 1
  | .fin a b, .fin c d =>
    if c = 0 then (if a = 0 then .nan else .posInf)
    else roundFloat64 (a * d) (b * c)

/-- The product `x * y`. -/
def Float64.mul : Float64 → Float64 → Float64
  | .nan, _ => .nan
  | _, .nan => .nan
  | .posInf, .posInf => .posInf
  | .posInf, .fin c _ => if c = 0 then .nan else .posInf
  | .fin a _, .posInf => if a = 0 then .nan else .posInf
  | .fin a b, .fin c d => roundFloat64 (a * c) (b * d)

/-- Two decimal digits. -/
def twoDigits (n : Nat) : GoString := Itoa (n / 10 % 10) ++ Itoa (n % 10)

/-- `strconv.FormatFloat(x, 'f', 2, 64)`: the exact value rounded to two
decimals, ties to even. -/
def FormatFloat2 : Float64 → GoString
  | .nan => "NaN".toList
  | .posInf => "+Inf".toList
  | .fin num den =>
    let n := roundHalfEven (num * 100) den
    Itoa (n / 100) ++ ".".toList ++ twoDigits n

/-! ## Package `encoding/csv` -/

/-- `Writer.fieldNeedsQuotes` with the comma as separator. -/
def fieldNeedsQuotes (field : GoString) : Bool :=
  if field = [] then false
  else if field = "\\.".toList then true
  else if field.any (fun c => c = '\n' ∨ c = '\r' ∨ c = '"' ∨ c = ',') then true
  else match field with
    | r1 :: _ => isSpace r1
    | [] => false

/-- The text of a quoted field between its quotes: every quote doubled. -/
def quoteField : GoString → GoString
  | [] => []
  | c :: s => if c = '"' then '"' :: '"' :: quoteField s else c :: quoteField s

/-- One field as `Writer.Write` writes it. -/
def csvField (field : GoString) : GoString :=
  if fieldNeedsQuotes field then '"' :: quoteField field ++ ['"'] else field

/-- `Writer.Write(record)`: the fields joined by commas, and a newline. -/
def csvWrite (record : List GoString) : GoString :=
  [','].intercalate (record.map csvField) ++ ['\n']

/-- `Writer.WriteAll(records)`. -/
def csvWriteAll (records : List (List GoString)) : GoString :=
  (records.map csvWrite).flatten

/-! ## The program -/

/-- `Docs`: of the paths that `filepath.Walk` visits, those ending in `.txt`;
`none` is the fatal exit when there is none. -/
def Docs (walked : List GoString) : Option (List GoString) :=
  let docs := walked.filter (fun filename => HasSuffix filename ".txt".toList)
  if docs.length = 0 then none else some docs

/-- `CleanChunks`: trimmed, lower case, with a space in front. -/
def CleanChunks (t : CaseTables) (chunk : GoString) : GoString :=
  let clean := TrimSpace chunk
  let lower := ToLower t clean
  let addSpace := " ".toList ++ lower
  addSpace

/-- `ImportDb` on the lines that `fileScanner.Scan()` yields: the lines of
`chunks.txt`, as long as they stay below the token limit of the scanner
(64 KiB).  The map only ever holds the value 1, so it is kept as its set of
keys. -/
def ImportDb (t : CaseTables) (lines : List GoString) : Finset GoString :=
  lines.foldl (fun dbMap line => insert (CleanChunks t line) dbMap) ∅

/-- `Conv`: the text of the file with a space in front; a file that cannot be
read (`none`) gives the empty text. -/
def Conv (inputBytes : Option GoString) : GoString :=
  " ".toList ++ inputBytes.getD []

/-- The outcome of a computation that may stop the process. -/
inductive Outcome (α : Type) where
  /-- It ran to its end. -/
  | ok (val : α)
  /-- A run-time panic (nil pointer dereference, index out of range). -/
  | crash
  /-- It used a regular expression outside the modelled fragment. -/
  | unmodelled
  deriving DecidableEq, Repr

/-- The value of a computation that ran to its end. -/
def Outcome.val? {α : Type} : Outcome α → Option α
  | .ok val => some val
  | _ => none

/-- The function passed to `ReplaceAllStringFunc`. -/
def highlightSpan (arg : GoString) : GoString :=
  "<span style=\"background-color: #FFFF00\">".toList ++ arg ++ "</span>".toList

/-- The highlighting step of the loop body:
`re, _ := regexp.Compile("(?i)" + chunk); inputHTML = re.ReplaceAllStringFunc(...)`.
After a compile error `re` is `nil` and the method call dereferences it. -/
def highlight (t : CaseTables) (chunk inputHTML : GoString) : Outcome GoString :=
  match regexpCompile ("(?i)".toList ++ chunk) with
  | .ok foldCase items => .ok (ReplaceAllStringFunc t foldCase items inputHTML highlightSpan)
  | .error => .crash
  | .unmodelled => .unmodelled

/-- The variables that the loop over the chunks updates.  (`chunkCount` is
written and never read; it is left out.) -/
structure LoopState where
  inputHTML : GoString
  records : List (List GoString)
  chunkTotal : Nat
  deriving DecidableEq, Repr

/-- The body of `for chunk := range chunks`. -/
def chunkStep (t : CaseTables) (inputCheck : GoString) (st : LoopState) (chunk : GoString) :
    Outcome LoopState :=
  if Contains inputCheck chunk then
    let chunkFreq := Count inputCheck chunk
    match highlight t chunk st.inputHTML with
    | .ok inputHTML =>
      let chunkString := TrimSpace chunk
      let record := [chunkString, Itoa (utf8Len chunk), Itoa chunkFreq]
      .ok { inputHTML := inputHTML
            records := st.records ++ [record]
            chunkTotal := st.chunkTotal + (Split chunkString " ".toList).length * chunkFreq }
    | .crash => .crash
    | .unmodelled => .unmodelled
  else .ok st

/-- The loop `for chunk := range chunks`, the keys coming in the order `order`. -/
def chunkLoop (t : CaseTables) (inputCheck : GoString) :
    List GoString → LoopState → Outcome LoopState
  | [], st => .ok st
  | chunk :: rest, st =>
    match chunkStep t inputCheck st chunk with
    | .ok st1 => chunkLoop t inputCheck rest st1
    | .crash => .crash
    | .unmodelled => .unmodelled

/-- The variables before the loop: `inputHTML := inputText`, `chunkTotal := 0`
and the header row in `records`. -/
def startState (inputText : GoString) : LoopState :=
  { inputHTML := inputText
    records := [["chunk".toList, "length".toList, "frequency".toList]]
    chunkTotal := 0 }

/-- `order` is an order in which `range` may yield the keys of `chunks`. -/
def IsRangeOrder (chunks : Finset GoString) (order : List GoString) : Prop :=
  order.Nodup ∧ order.toFinset = chunks

instance (chunks : Finset GoString) (order : List GoString) :
    Decidable (IsRangeOrder chunks order) := by
  unfold IsRangeOrder; infer_instance

/-- `fileName`: the second component of the path with `.` replaced by `-`;
indexing a path of one component panics. -/
def fileName (osSep file : GoString) : Outcome GoString :=
  let pathSplit := Split file osSep
  match pathSplit.get? 1 with
  | some name => .ok (ReplaceAll name ".".toList "-".toList)
  | none => .crash

/-- What the program writes for one document. -/
structure Report where
  /-- The paths of the three files, in the order html, csv, txt. -/
  htmlPath : GoString
  csvPath : GoString
  statPath : GoString
  /-- The text of `result_<name>.html`. -/
  inputHTML : GoString
  /-- The rows handed to the CSV writer, and the text it writes. -/
  records : List (List GoString)
  csvText : GoString
  chunkTotal : Nat
  words : Nat
  /-- The number of chunks checked, `len(chunks)`. -/
  checked : Nat
  /-- The rendering of `percent`. -/
  percent : GoString
  /-- The text of `stats_<name>.txt`. -/
  statText : GoString
  deriving DecidableEq, Repr

/-- `percent := float64(chunkTotal) / float64(words) * 100`, formatted. -/
def percentText (chunkTotal words : Nat) : GoString :=
  FormatFloat2 (((Float64.ofInt chunkTotal).div (Float64.ofInt words)).mul (Float64.ofInt 100))

/-- The text written to the statistics file. -/
def statFileText (file : GoString) (chunkTotal words checked : Nat) : GoString :=
  "--------------------------------------------------------\n".toList ++
  ("Chunk Hunter statistics for ".toList ++ file ++ "\n".toList) ++
  "--------------------------------------------------------\n\n".toList ++
  ("Frequency: ".toList ++ Itoa chunkTotal ++ " chunkwords / ".toList ++ Itoa words ++
    " words = ".toList ++ percentText chunkTotal words ++ "%\n\n".toList) ++
  ("Text checked against ".toList ++ Itoa checked ++ " registered combinations\n\n".toList)

/-- The body of `for _, file := range files` in `main`, the output files being
writable: `order` is the order in which the chunks are ranged over and
`inputBytes` what `ioutil.ReadFile(file)` returns. -/
def processFile (t : CaseTables) (osSep : GoString) (order : List GoString)
    (file : GoString) (inputBytes : Option GoString) : Outcome Report :=
  match fileName osSep file with
  | .ok fileName =>
    let inputText := Conv inputBytes
    let words := (Fields inputText).length
    let inputCheck := ToLower t inputText
    match chunkLoop t inputCheck order (startState inputText) with
    | .ok st =>
      .ok { htmlPath := "output".toList ++ osSep ++ "result_".toList ++ fileName ++ ".html".toList
            csvPath := "output".toList ++ osSep ++ "stats_".toList ++ fileName ++ ".csv".toList
            statPath := "output".toList ++ osSep ++ "stats_".toList ++ fileName ++ ".txt".toList
            inputHTML := st.inputHTML
            records := st.records
            csvText := csvWriteAll st.records
            chunkTotal := st.chunkTotal
            words := words
            checked := order.length
            percent := percentText st.chunkTotal words
            statText := statFileText file st.chunkTotal words order.length }
    | .crash => .crash
    | .unmodelled => .unmodelled
  | .crash => .crash
  | .unmodelled => .unmodelled

/-! ## The program with the whole of package `regexp`

`processFile` answers `unmodelled` when a chunk that occurs in the document
gives an expression outside the modelled fragment.  Below, what package
`regexp` does with such an expression is a parameter, `rest`, so that every
run of the program is covered: it ends in `ok` or in `crash`.
-/

/-- What package `regexp` does with the expressions outside the modelled
fragment: `none` when `regexp.Compile(expr)` returns an error, and otherwise
the function that `re.ReplaceAllStringFunc(src, repl)` computes for the compiled
expression. -/
abbrev RegexpRest := GoString → Option (GoString → (GoString → GoString) → GoString)

/-- `re, _ := regexp.Compile(expr)` together with the method
`re.ReplaceAllStringFunc`: `none` when `re` is `nil`. -/
def compileWith (rest : RegexpRest) (t : CaseTables) (expr : GoString) :
    Option (GoString → (GoString → GoString) → GoString) :=
  match regexpCompile expr with
  | .ok foldCase items => some (ReplaceAllStringFunc t foldCase items)
  | .error => none
  | .unmodelled => rest expr

/-- The highlighting step of the loop body: calling `ReplaceAllStringFunc` on a
`nil` `*Regexp` panics. -/
def highlightWith (rest : RegexpRest) (t : CaseTables) (chunk inputHTML : GoString) :
    Outcome GoString :=
  match compileWith rest t ("(?i)".toList ++ chunk) with
  | some replaceAllStringFunc => .ok (replaceAllStringFunc inputHTML highlightSpan)
  | none => .crash

/-- The body of `for chunk := range chunks`. -/
def chunkStepWith (rest : RegexpRest) (t : CaseTables) (inputCheck : GoString)
    (st : LoopState) (chunk : GoString) : Outcome LoopState :=
  if Contains inputCheck chunk then
    let chunkFreq := Count inputCheck chunk
    match highlightWith rest t chunk st.inputHTML with
    | .ok inputHTML =>
      let chunkString := TrimSpace chunk
      let record := [chunkString, Itoa (utf8Len chunk), Itoa chunkFreq]
      .ok { inputHTML := inputHTML
            records := st.records ++ [record]
            chunkTotal := st.chunkTotal + (Split chunkString " ".toList).length * chunkFreq }
    | .crash => .crash
    | .unmodelled => .unmodelled
  else .ok st

/-- The loop `for chunk := range chunks`, the keys coming in the order `order`. -/
def chunkLoopWith (rest : RegexpRest) (t : CaseTables) (inputCheck : GoString) :
    List GoString → LoopState → Outcome LoopState
  | [], st => .ok st
  | chunk :: more, st =>
    match chunkStepWith rest t inputCheck st chunk with
    | .ok st1 => chunkLoopWith rest t inputCheck more st1
    | .crash => .crash
    | .unmodelled => .unmodelled

/-- The body of `for _, file := range files` in `main`, the output files being
writable. -/
def processFileWith (rest : RegexpRest) (t : CaseTables) (osSep : GoString)
    (order : List GoString) (file : GoString) (inputBytes : Option GoString) :
    Outcome Report :=
  match fileName osSep file with
  | .ok fileName =>
    let inputText := Conv inputBytes
    let words := (Fields inputText).length
    let inputCheck := ToLower t inputText
    match chunkLoopWith rest t inputCheck order (startState inputText) with
    | .ok st =>
      .ok { htmlPath := "output".toList ++ osSep ++ "result_".toList ++ fileName ++ ".html".toList
            csvPath := "output".toList ++ osSep ++ "stats_".toList ++ fileName ++ ".csv".toList
            statPath := "output".toList ++ osSep ++ "stats_".toList ++ fileName ++ ".txt".toList
            inputHTML := st.inputHTML
            records := st.records
            csvText := csvWriteAll st.records
            chunkTotal := st.chunkTotal
            words := words
            checked := order.length
            percent := percentText st.chunkTotal words
            statText := statFileText file st.chunkTotal words order.length }
    | .crash => .crash
    | .unmodelled => .unmodelled
  | .crash => .crash
  | .unmodelled => .unmodelled

/-- The loop `for _, file := range files` of `main`: a panic ends the process.
`order file` is the order in which the chunks are ranged over for `file` (Go
fixes no order, and it may differ from file to file) and `read file` is what
`ioutil.ReadFile(file)` returns. -/
def mainLoop (t : CaseTables) (osSep : GoString) (order : GoString → List GoString)
    (read : GoString → Option GoString) : List GoString → Outcome (List Report)
  | [] => .ok []
  | file :: files =>
    match processFile t osSep (order file) file (read file) with
    | .ok report =>
      match mainLoop t osSep order read files with
      | .ok reports => .ok (report :: reports)
      | .crash => .crash
      | .unmodelled => .unmodelled
    | .crash => .crash
    | .unmodelled => .unmodelled

/-- `main`, the dictionary and the output files being readable and writable:
`none` is the fatal exit of `Docs`. -/
def main (t : CaseTables) (osSep : GoString) (order : GoString → List GoString)
    (walked : List GoString) (read : GoString → Option GoString) :
    Option (Outcome (List Report)) :=
  (Docs walked).map (mainLoop t osSep order read)

/-! ## Definitions used to state the properties -/

/-- The record that a matched chunk adds to the frequency table. -/
def recordOf (inputCheck chunk : GoString) : List GoString :=
  [TrimSpace chunk, Itoa (utf8Len chunk), Itoa (Count inputCheck chunk)]

/-- The rows that a chunk adds to the frequency table. -/
def stepRecords (inputCheck chunk : GoString) : List (List GoString) :=
  if Contains inputCheck chunk then [recordOf inputCheck chunk] else []

/-- What a chunk adds to `chunkTotal`. -/
def stepWords (inputCheck chunk : GoString) : Nat :=
  if Contains inputCheck chunk then
    (Split (TrimSpace chunk) " ".toList).length * Count inputCheck chunk
  else 0

/-- Whether the loop body runs to its end for a chunk: the chunk does not occur,
or its expression compiles to a modelled program. -/
def stepRuns (inputCheck chunk : GoString) : Bool :=
  if Contains inputCheck chunk then
    match regexpCompile ("(?i)".toList ++ chunk) with
    | .ok _ _ => true
    | _ => false
  else true

/-- The run of the scenario: dictionary line `good morning`, document text
` Good Morning, good morning!`. -/
def scenarioRun : Outcome Report :=
  processFile asciiTables "/".toList [" good morning".toList] "input/doc.txt".toList
    (some " Good Morning, good morning!".toList)

/-- The number of positions of `s` at which `substr` occurs: every start
position counts, whether or not the occurrences overlap. -/
def occurrences (substr : GoString) : GoString → Nat
  | [] => if substr = [] then 1 else 0
  | c :: s => (if substr.isPrefixOf (c :: s) then 1 else 0) + occurrences substr s

/-- The number of occurrences of `substr` counted from left to right without
overlap: an occurrence is counted when it starts at or after the end of the one
counted before it.  `skip` is the number of code points at the start of the
text that the last counted occurrence still covers. -/
def disjointCount (substr : GoString) : Nat → GoString → Nat
  | _, [] => 0
  | skip + 1, _ :: s => disjointCount substr skip s
  | 0, c :: s =>
    if substr.isPrefixOf (c :: s) then 1 + disjointCount substr (substr.length - 1) s
    else disjointCount substr 0 s

/-- The chunk rune `r` and the text rune `c` are equal up to case: equal, or
related by simple case folding. -/
def sameUpToCase (t : CaseTables) (r c : Char) : Bool :=
  c = r ∨ t.foldOrbit r c

/-- `chunk` occurs case-insensitively at the start of `s`. -/
def occursAt (t : CaseTables) : GoString → GoString → Bool
  | [], _ => true
  | _ :: _, [] => false
  | r :: rs, c :: s => sameUpToCase t r c && occursAt t rs s

/-- The text in which every case-insensitive occurrence of `chunk` is wrapped,
whether or not occurrences overlap: at every position, the closing tag of an
occurrence that ends there, then the opening tag of an occurrence that starts
there, then the rune of the text. -/
def wrapEveryOccurrence (t : CaseTables) (chunk text : GoString) : GoString :=
  ((List.range (text.length + 1)).map (fun i =>
    (if chunk.length ≤ i ∧ occursAt t chunk (text.drop (i - chunk.length))
      then "</span>".toList else []) ++
    (if occursAt t chunk (text.drop i)
      then "<span style=\"background-color: #FFFF00\">".toList else []) ++
    (text.drop i).take 1)).flatten

/-- The scan behind `wrapDisjointOccurrences`; `fuel` bounds the number of
runes still to be read. -/
def wrapScan (t : CaseTables) (chunk : GoString) : Nat → GoString → GoString
  | 0, s => s
  | _ + 1, [] => []
  | fuel + 1, c :: s =>
    if occursAt t chunk (c :: s) then
      highlightSpan ((c :: s).take chunk.length) ++
        wrapScan t chunk fuel ((c :: s).drop chunk.length)
    else c :: wrapScan t chunk fuel s

/-- The text in which the case-insensitive occurrences of a non-empty `chunk`
are wrapped from left to right without overlap: an occurrence is wrapped, in
the case it has in the text, when it starts at or after the end of the one
wrapped before it; all other text is copied unchanged. -/
def wrapDisjointOccurrences (t : CaseTables) (chunk text : GoString) : GoString :=
  wrapScan t chunk text.length text

/-- The runes with a meaning in the syntax of regular expressions. -/
def metaRune (c : Char) : Bool :=
  c = '\\' ∨ c = '.' ∨ c = '+' ∨ c = '*' ∨ c = '?' ∨ c = '(' ∨ c = ')' ∨ c = '|' ∨
  c = '[' ∨ c = '{' ∨ c = '^' ∨ c = '$'

/-- The parser stack after reading literal runes; `rev` holds them last first. -/
def litEntries (rev : GoString) : List Entry :=
  rev.map (fun c => Entry.re (Expr.flat [Item.lit c]))

/-- The replacement of `.` by `-` on one rune. -/
def dotToDash (c : Char) : Char := if c = '.' then '-' else c

/-- Whether the loop body runs to its end for a chunk: the chunk does not occur,
or its expression compiles. -/
def stepRunsWith (rest : RegexpRest) (t : CaseTables) (inputCheck chunk : GoString) : Bool :=
  if Contains inputCheck chunk then (compileWith rest t ("(?i)".toList ++ chunk)).isSome
  else true

/-- A value of `rest` that answers for one expression, `(?i) (x)`: the group
around the literal `x` compiles, and matches what the literal ` x` matches. -/
def groupRest : RegexpRest := fun expr =>
  if expr = "(?i) (x)".toList then
    some (ReplaceAllStringFunc asciiTables true [.lit ' ', .lit 'x'])
  else none

/-! ## The dictionary -/

theorem importDb_foldl (t : CaseTables) (lines : List GoString) (acc : Finset GoString) :
    lines.foldl (fun dbMap line => insert (CleanChunks t line) dbMap) acc =
      acc ∪ (lines.map (CleanChunks t)).toFinset := by
  induction lines generalizing acc with
  | nil => simp
  | cons line rest ih =>
    rw [List.foldl_cons, ih]
    ext x
    simp only [Finset.mem_union, Finset.mem_insert, List.map_cons, List.toFinset_cons]
    tauto

theorem importDb_eq_toFinset (t : CaseTables) (lines : List GoString) :
    ImportDb t lines = (lines.map (CleanChunks t)).toFinset := by
  unfold ImportDb
  rw [importDb_foldl]
  simp

theorem mem_importDb (t : CaseTables) (lines : List GoString) (chunk : GoString) :
    chunk ∈ ImportDb t lines ↔ ∃ line ∈ lines, CleanChunks t line = chunk := by
  rw [importDb_eq_toFinset]
  simp

theorem dropWhile_append_of_all {α : Type} (p : α → Bool) (ws s : List α)
    (h : ∀ c ∈ ws, p c = true) : (ws ++ s).dropWhile p = s.dropWhile p := by
  induction ws with
  | nil => rfl
  | cons w ws ih =>
    have hw : p w = true := h w (List.mem_cons_self _ _)
    rw [List.cons_append, List.dropWhile_cons, if_pos hw]
    exact ih (fun c hc => h c (List.mem_cons_of_mem _ hc))

theorem dropWhile_eq_self_of_head {α : Type} (p : α → Bool) (s : List α)
    (h : ∀ c, s.head? = some c → p c = false) : s.dropWhile p = s := by
  cases s with
  | nil => rfl
  | cons c s =>
    have hc : p c = false := h c rfl
    simp [List.dropWhile_cons, hc]

theorem trimSpace_surrounded (ws1 x ws2 : GoString)
    (h1 : ∀ c ∈ ws1, isSpace c = true) (h2 : ∀ c ∈ ws2, isSpace c = true)
    (hhead : ∀ c, x.head? = some c → isSpace c = false)
    (hlast : ∀ c, x.getLast? = some c → isSpace c = false) :
    TrimSpace (ws1 ++ x ++ ws2) = x := by
  unfold TrimSpace
  rw [List.append_assoc, dropWhile_append_of_all isSpace ws1 _ h1]
  cases x with
  | nil =>
    have : (([] : GoString) ++ ws2).dropWhile isSpace = [] := by
      rw [List.nil_append, List.dropWhile_eq_nil_iff]
      exact h2
    rw [this]; rfl
  | cons c x =>
    rw [dropWhile_eq_self_of_head isSpace (c :: x ++ ws2) (by
      intro d hd
      exact hhead d (by simpa using hd))]
    rw [List.reverse_append,
      dropWhile_append_of_all isSpace ws2.reverse _ (by
        intro d hd
        exact h2 d (List.mem_reverse.mp hd)),
      dropWhile_eq_self_of_head isSpace (c :: x).reverse (by
        intro d hd
        rw [List.head?_reverse] at hd
        exact hlast d hd)]
    exact List.reverse_reverse _

/-- C5: dictionary loading normalizes each line to a single space followed by
the lowercased, white-space-trimmed line and stores the results as a set: the
loaded set is the same for every permutation of the list of lines and for every
list with the same lines repeated; two lines that differ only in letter case and
in surrounding white space give one entry; and loading `Foo`, ` foo `, `FOO`
yields exactly one chunk, ` foo`. -/
theorem dictionary_is_a_set_of_normalized_lines (t : CaseTables) :
    (∀ lines : List GoString,
      ImportDb t lines =
        (lines.map (fun line => ' ' :: (TrimSpace line).map t.toLower)).toFinset) ∧
    (∀ l1 l2 : List GoString, l1.Perm l2 → ImportDb t l1 = ImportDb t l2) ∧
    (∀ l1 l2 : List GoString, (∀ line, line ∈ l1 ↔ line ∈ l2) → ImportDb t l1 = ImportDb t l2) ∧
    (∀ l : List GoString, ImportDb t (l ++ l) = ImportDb t l) ∧
    (∀ ws1 ws2 ws3 ws4 x y : GoString,
      (∀ c ∈ ws1 ++ ws2 ++ ws3 ++ ws4, isSpace c = true) →
      (∀ c, x.head? = some c ∨ x.getLast? = some c ∨ y.head? = some c ∨ y.getLast? = some c →
        isSpace c = false) →
      x.map t.toLower = y.map t.toLower →
      ImportDb t [ws1 ++ x ++ ws2, ws3 ++ y ++ ws4] = {' ' :: x.map t.toLower}) ∧
    ImportDb asciiTables ["Foo".toList, " foo ".toList, "FOO".toList] = {" foo".toList} := by
  have hset : ∀ l1 l2 : List GoString, (∀ line, line ∈ l1 ↔ line ∈ l2) →
      ImportDb t l1 = ImportDb t l2 := by
    intro l1 l2 h
    ext chunk
    simp only [mem_importDb, h]
  refine ⟨fun lines => importDb_eq_toFinset t lines, ?_, hset, ?_, ?_, by decide⟩
  · intro l1 l2 h
    exact hset l1 l2 (fun line => h.mem_iff)
  · intro l
    exact hset _ _ (fun line => by simp)
  · intro ws1 ws2 ws3 ws4 x y hws hxy hlow
    have e1 : TrimSpace (ws1 ++ x ++ ws2) = x :=
      trimSpace_surrounded ws1 x ws2 (fun c hc => hws c (by simp [hc]))
        (fun c hc => hws c (by simp [hc])) (fun c hc => hxy c (Or.inl hc))
        (fun c hc => hxy c (Or.inr (Or.inl hc)))
    have e2 : TrimSpace (ws3 ++ y ++ ws4) = y :=
      trimSpace_surrounded ws3 y ws4 (fun c hc => hws c (by simp [hc]))
        (fun c hc => hws c (by simp [hc])) (fun c hc => hxy c (Or.inr (Or.inr (Or.inl hc))))
        (fun c hc => hxy c (Or.inr (Or.inr (Or.inr hc))))
    rw [importDb_eq_toFinset]
    simp only [List.map_cons, List.map_nil, CleanChunks, ToLower, e1, e2, hlow]
    ext chunk
    simp

/-- C5, witness: the lines `b`, `a` and the lines `a`, `b`, `a` load the same set. -/
theorem dictionary_is_a_set_of_normalized_lines_witness :
    ImportDb asciiTables ["b".toList, "a".toList] = ImportDb asciiTables ["a".toList, "b".toList, "a".toList] :=
  (dictionary_is_a_set_of_normalized_lines asciiTables).2.2.1 _ _ (by intro line; simp; tauto)

/-! ## The loop over the chunks -/

theorem chunkStep_ok (t : CaseTables) (inputCheck chunk : GoString) (st st1 : LoopState)
    (h : chunkStep t inputCheck st chunk = .ok st1) :
    stepRuns inputCheck chunk = true ∧
    st1.records = st.records ++ stepRecords inputCheck chunk ∧
    st1.chunkTotal = st.chunkTotal + stepWords inputCheck chunk := by
  unfold chunkStep highlight at h
  unfold stepRuns stepRecords stepWords
  generalize regexpCompile ("(?i)".toList ++ chunk) = cr at h ⊢
  by_cases hc : Contains inputCheck chunk = true
  · rw [if_pos hc] at h
    rw [if_pos hc, if_pos hc, if_pos hc]
    cases cr with
    | ok foldCase items =>
      injection h with h
      subst h
      exact ⟨rfl, rfl, rfl⟩
    | error => exact absurd h (by simp)
    | unmodelled => exact absurd h (by simp)
  · rw [if_neg hc] at h
    rw [if_neg hc, if_neg hc, if_neg hc]
    injection h with h
    subst h
    simp

theorem chunkStep_runs (t : CaseTables) (inputCheck chunk : GoString) (st : LoopState)
    (h : stepRuns inputCheck chunk = true) :
    ∃ st1, chunkStep t inputCheck st chunk = .ok st1 := by
  unfold stepRuns at h
  unfold chunkStep highlight
  generalize regexpCompile ("(?i)".toList ++ chunk) = cr at h ⊢
  by_cases hc : Contains inputCheck chunk = true
  · rw [if_pos hc] at h
    rw [if_pos hc]
    cases cr with
    | ok foldCase items => exact ⟨_, rfl⟩
    | error => exact absurd h (by simp)
    | unmodelled => exact absurd h (by simp)
  · rw [if_neg hc]
    exact ⟨st, rfl⟩

theorem chunkLoop_ok (t : CaseTables) (inputCheck : GoString) (order : List GoString)
    (st st1 : LoopState) (h : chunkLoop t inputCheck order st = .ok st1) :
    (∀ chunk ∈ order, stepRuns inputCheck chunk = true) ∧
    st1.records = st.records ++ order.flatMap (stepRecords inputCheck) ∧
    st1.chunkTotal = st.chunkTotal + (order.map (stepWords inputCheck)).sum := by
  induction order generalizing st with
  | nil =>
    simp only [chunkLoop] at h
    injection h with h
    subst h
    simp
  | cons chunk rest ih =>
    simp only [chunkLoop] at h
    cases hs : chunkStep t inputCheck st chunk with
    | ok st2 =>
      simp only [hs] at h
      obtain ⟨hr, hrec, htot⟩ := chunkStep_ok t inputCheck chunk st st2 hs
      obtain ⟨hr2, hrec2, htot2⟩ := ih st2 h
      refine ⟨?_, ?_, ?_⟩
      · intro c hc
        rcases List.mem_cons.mp hc with rfl | hc
        · exact hr
        · exact hr2 c hc
      · rw [hrec2, hrec, List.flatMap_cons, List.append_assoc]
      · rw [htot2, htot, List.map_cons, List.sum_cons, Nat.add_assoc]
    | crash => simp [hs] at h
    | unmodelled => simp [hs] at h

theorem chunkLoop_runs (t : CaseTables) (inputCheck : GoString) (order : List GoString)
    (st : LoopState) (h : ∀ chunk ∈ order, stepRuns inputCheck chunk = true) :
    ∃ st1, chunkLoop t inputCheck order st = .ok st1 := by
  induction order generalizing st with
  | nil => exact ⟨st, rfl⟩
  | cons chunk rest ih =>
    obtain ⟨st2, hs⟩ := chunkStep_runs t inputCheck chunk st (h chunk (List.mem_cons_self _ _))
    obtain ⟨st1, hl⟩ := ih st2 (fun c hc => h c (List.mem_cons_of_mem _ hc))
    exact ⟨st1, by simp only [chunkLoop, hs, hl]⟩

theorem processFile_ok (t : CaseTables) (osSep : GoString) (order : List GoString)
    (file : GoString) (inputBytes : Option GoString) (r : Report)
    (h : processFile t osSep order file inputBytes = .ok r) :
    ∃ name st, fileName osSep file = .ok name ∧
      chunkLoop t (ToLower t (Conv inputBytes)) order (startState (Conv inputBytes)) = .ok st ∧
      r.records = st.records ∧ r.chunkTotal = st.chunkTotal ∧
      r.words = (Fields (Conv inputBytes)).length ∧ r.checked = order.length ∧
      r.percent = percentText st.chunkTotal (Fields (Conv inputBytes)).length := by
  unfold processFile at h
  generalize fileName osSep file = fn at h ⊢
  cases fn with
  | ok name =>
    simp only at h
    generalize chunkLoop t (ToLower t (Conv inputBytes)) order (startState (Conv inputBytes)) = lr
      at h ⊢
    cases lr with
    | ok st =>
      injection h with h
      subst h
      exact ⟨name, st, rfl, rfl, rfl, rfl, rfl, rfl, rfl⟩
    | crash => exact absurd h (by simp)
    | unmodelled => exact absurd h (by simp)
  | crash => exact absurd h (by simp)
  | unmodelled => exact absurd h (by simp)

theorem processFile_runs (t : CaseTables) (osSep : GoString) (order : List GoString)
    (file : GoString) (inputBytes : Option GoString) (name : GoString) (st : LoopState)
    (hn : fileName osSep file = .ok name)
    (hl : chunkLoop t (ToLower t (Conv inputBytes)) order (startState (Conv inputBytes)) = .ok st) :
    ∃ r, processFile t osSep order file inputBytes = .ok r ∧
      r.records = st.records ∧ r.chunkTotal = st.chunkTotal ∧
      r.words = (Fields (Conv inputBytes)).length ∧ r.checked = order.length ∧
      r.percent = percentText st.chunkTotal (Fields (Conv inputBytes)).length := by
  unfold processFile
  simp only [hn, hl]
  exact ⟨_, rfl, rfl, rfl, rfl, rfl, rfl⟩

theorem IsRangeOrder.perm {chunks : Finset GoString} {order1 order2 : List GoString}
    (h1 : IsRangeOrder chunks order1) (h2 : IsRangeOrder chunks order2) :
    order1.Perm order2 :=
  List.perm_of_nodup_nodup_toFinset_eq h1.1 h2.1 (h1.2.trans h2.2.symm)

/-! ## `strings.Index`, `strings.Contains` and `strings.Count` -/

theorem contains_iff_substring (s substr : GoString) :
    Contains s substr = true ↔ substr <:+: s := by
  unfold Contains
  induction s with
  | nil =>
    by_cases h : substr = []
    · simp [Index, h]
    · simp [Index, h]
  | cons c s ih =>
    rw [List.infix_cons_iff, ← ih]
    have e : Index (c :: s) substr =
        if substr.isPrefixOf (c :: s) then some 0 else (Index s substr).map (· + 1) := rfl
    rw [e]
    by_cases hp : substr.isPrefixOf (c :: s) = true
    · rw [if_pos hp]
      simp [List.isPrefixOf_iff_prefix.mp hp]
    · rw [if_neg hp]
      have hp2 : ¬ substr <+: c :: s := fun h => hp (List.isPrefixOf_iff_prefix.mpr h)
      simp [hp2]

theorem disjointCount_skip (substr : GoString) (skip : Nat) (s : GoString) :
    disjointCount substr skip s = disjointCount substr 0 (s.drop skip) := by
  induction skip generalizing s with
  | zero => rfl
  | succ k ih =>
    cases s with
    | nil => simp [disjointCount]
    | cons c s => simp only [disjointCount, List.drop_succ_cons]; exact ih s

theorem disjointCount_of_index_none (substr s : GoString) (h : Index s substr = none) :
    disjointCount substr 0 s = 0 := by
  induction s with
  | nil => rfl
  | cons c s ih =>
    unfold Index at h
    by_cases hp : substr.isPrefixOf (c :: s) = true
    · rw [if_pos hp] at h; exact absurd h (by simp)
    · rw [if_neg hp] at h
      have hs : Index s substr = none := by
        cases hi : Index s substr with
        | none => rfl
        | some j => rw [hi] at h; exact absurd h (by simp)
      simp only [disjointCount, hp]
      exact ih hs

theorem disjointCount_of_index_some (substr s : GoString) (i : Nat) (hne : substr ≠ [])
    (h : Index s substr = some i) :
    disjointCount substr 0 s = 1 + disjointCount substr 0 (s.drop (i + substr.length)) := by
  have hlen : substr.length = (substr.length - 1) + 1 := by
    have := List.length_pos.mpr hne
    omega
  induction s generalizing i with
  | nil => simp [Index, hne] at h
  | cons c s ih =>
    unfold Index at h
    by_cases hp : substr.isPrefixOf (c :: s) = true
    · rw [if_pos hp] at h
      injection h with h
      subst h
      simp only [disjointCount, hp, if_true]
      rw [disjointCount_skip, Nat.zero_add]
      conv_rhs => rw [hlen, List.drop_succ_cons]
    · rw [if_neg hp] at h
      cases hi : Index s substr with
      | none => rw [hi] at h; exact absurd h (by simp)
      | some j =>
        rw [hi] at h
        simp only [Option.map_some', Option.some.injEq] at h
        subst h
        have : j + 1 + substr.length = (j + substr.length) + 1 := by omega
        rw [this, List.drop_succ_cons, ← ih j hi]
        simp [disjointCount, hp]

theorem countLoop_eq_disjointCount (substr : GoString) (hne : substr ≠ []) :
    ∀ (fuel : Nat) (s : GoString), s.length < fuel →
      countLoop substr fuel s = disjointCount substr 0 s := by
  intro fuel
  induction fuel with
  | zero => intro s h; omega
  | succ fuel ih =>
    intro s h
    unfold countLoop
    cases hi : Index s substr with
    | none => simp only; exact (disjointCount_of_index_none substr s hi).symm
    | some i =>
      simp only
      rw [disjointCount_of_index_some substr s i hne hi]
      have hpos : 0 < substr.length := List.length_pos.mpr hne
      have hs : 0 < s.length := by
        cases s with
        | nil => simp [Index, hne] at hi
        | cons c s => simp
      rw [ih _ (by rw [List.length_drop]; omega)]

theorem count_eq_disjointCount (s substr : GoString) (hne : substr ≠ []) :
    Count s substr = disjointCount substr 0 s := by
  unfold Count
  rw [if_neg hne]
  exact countLoop_eq_disjointCount substr hne _ s (Nat.lt_succ_self _)

theorem count_pos_of_contains (s substr : GoString) (h : Contains s substr = true) :
    1 ≤ Count s substr := by
  unfold Count
  by_cases hne : substr = []
  · rw [if_pos hne]; omega
  · rw [if_neg hne]
    unfold Contains at h
    unfold countLoop
    cases hi : Index s substr with
    | none => rw [hi] at h; exact absurd h (by simp)
    | some i => simp only; omega

theorem disjointCount_le_occurrences (substr : GoString) (skip : Nat)
    (s : GoString) : disjointCount substr skip s ≤ occurrences substr s := by
  induction s generalizing skip with
  | nil => simp [disjointCount]
  | cons c s ih =>
    cases skip with
    | succ k =>
      simp only [disjointCount, occurrences]
      exact Nat.le_trans (ih k) (Nat.le_add_left _ _)
    | zero =>
      simp only [disjointCount, occurrences]
      by_cases hp : substr.isPrefixOf (c :: s) = true
      · rw [if_pos hp, if_pos hp]
        exact Nat.add_le_add_left (ih _) 1
      · rw [if_neg hp, if_neg hp, Nat.zero_add]
        exact ih 0

theorem cleanChunks_ne_nil (t : CaseTables) (line : GoString) : CleanChunks t line ≠ [] := by
  simp [CleanChunks]

/-! ## The frequency of a chunk -/

/-- C1, counterexample: with the dictionary line `a a` and the document `a a a`
the chunk ` a a` occurs at two positions of the lowercased, space-prefixed
content (they overlap), and the table has the row `a a,4,1`, no row with
frequency 2. -/
theorem overlapping_occurrences_counted_once :
    " a a".toList ∈ ImportDb asciiTables ["a a".toList] ∧
    " a a".toList <:+: ToLower asciiTables (Conv (some "a a a".toList)) ∧
    occurrences " a a".toList (ToLower asciiTables (Conv (some "a a a".toList))) = 2 ∧
    (processFile asciiTables "/".toList [" a a".toList] "input/doc.txt".toList
        (some "a a a".toList)).val?.map Report.records =
      some [["chunk".toList, "length".toList, "frequency".toList],
            ["a a".toList, "4".toList, "1".toList]] ∧
    ¬ (∀ r, processFile asciiTables "/".toList [" a a".toList] "input/doc.txt".toList
          (some "a a a".toList) = .ok r →
        [TrimSpace " a a".toList, Itoa (utf8Len " a a".toList),
          Itoa (occurrences " a a".toList (ToLower asciiTables (Conv (some "a a a".toList))))]
          ∈ r.records) := by
  refine ⟨by decide, (contains_iff_substring _ _).mp (by decide), by decide, by decide, ?_⟩
  intro h
  have h2 := h _ rfl
  revert h2
  decide

/-! ## The percentage -/

theorem bitLenAux_zero (fuel : Nat) : bitLenAux fuel 0 = 0 := by
  cases fuel <;> simp [bitLenAux]

theorem two_pow_bitLenAux_le (fuel : Nat) :
    ∀ n, n ≤ fuel → n ≠ 0 → 1 ≤ bitLenAux fuel n ∧ 2 ^ (bitLenAux fuel n - 1) ≤ n := by
  induction fuel with
  | zero => intro n h h0; omega
  | succ fuel ih =>
    intro n h h0
    simp only [bitLenAux, if_neg h0]
    refine ⟨by omega, ?_⟩
    rw [Nat.add_sub_cancel_left]
    by_cases h2 : n / 2 = 0
    · rw [h2, bitLenAux_zero]
      simp only [Nat.pow_zero]
      omega
    · obtain ⟨hb, hp⟩ := ih (n / 2) (by omega) h2
      have e : bitLenAux fuel (n / 2) = (bitLenAux fuel (n / 2) - 1) + 1 := by omega
      rw [e, Nat.pow_succ]
      omega

theorem two_pow_bitLen_le (n : Nat) (h0 : n ≠ 0) : 2 ^ (bitLen n - 1) ≤ n :=
  (two_pow_bitLenAux_le n n (Nat.le_refl n) h0).2

theorem div_le_roundHalfEven (n d : Nat) : n / d ≤ roundHalfEven n d := by
  unfold roundHalfEven
  split <;> omega

theorem ofInt_zero : Float64.ofInt 0 = .fin 0 1 := by
  decide

theorem ofInt_pos (n : Nat) (h0 : n ≠ 0) : ∃ a b, Float64.ofInt n = .fin a b ∧ a ≠ 0 := by
  unfold Float64.ofInt roundFloat64
  rw [if_neg h0]
  refine ⟨_, _, rfl, ?_⟩
  have hb : bitLen 1 = 1 := by decide
  simp only [hb, Nat.one_mul]
  apply Nat.mul_ne_zero _ (by positivity)
  have hle : 2 ^ (bitLen n - (1 + 52)) ≤ n := by
    refine Nat.le_trans (Nat.pow_le_pow_right (by omega) (by omega)) (two_pow_bitLen_le n h0)
  generalize (if n * 2 ^ (1 + 52 - bitLen n) / 2 ^ (bitLen n - (1 + 52)) ≥ 2 ^ 52 then
      1 + 52 - bitLen n else 1 + 52 - bitLen n + 1) = down
  have h1 : 2 ^ (bitLen n - (1 + 52)) ≤ n * 2 ^ down :=
    Nat.le_trans hle (Nat.le_mul_of_pos_right n (by positivity))
  have h2 : 1 ≤ n * 2 ^ down / 2 ^ (bitLen n - (1 + 52)) :=
    (Nat.one_le_div_iff (by positivity)).mpr h1
  have h3 := div_le_roundHalfEven (n * 2 ^ down) (2 ^ (bitLen n - (1 + 52)))
  omega

theorem percentText_zero_words (chunkTotal : Nat) :
    percentText chunkTotal 0 = if chunkTotal = 0 then "NaN".toList else "+Inf".toList := by
  by_cases h0 : chunkTotal = 0
  · subst h0
    decide
  · rw [if_neg h0]
    obtain ⟨a, b, e, ha⟩ := ofInt_pos chunkTotal h0
    have h100 : Float64.ofInt 100 = .fin 7036874417766400 70368744177664 := by decide
    unfold percentText
    rw [e, ofInt_zero, h100]
    simp [Float64.div, Float64.mul, FormatFloat2, ha]

/-- C4, counterexample: for a document without words (here a file that cannot
be read, with an empty dictionary) the rendered percentage is `NaN`, not
`0.00`. -/
theorem percentage_of_empty_document_is_not_zero :
    (processFile asciiTables "/".toList [] "input/doc.txt".toList none).val?.map
      (fun r => (r.chunkTotal, r.words, r.percent)) = some (0, 0, "NaN".toList) ∧
    percentText 0 0 ≠ "0.00".toList := by
  decide

/-- C4, amended: the percentage is chunkTotal / words × 100 rendered with two
decimals: for chunkTotal = 10 and words = 50 the rendered value is `20.00`, and
for every document with words = 0 the run does not fail on the division and
the rendered value is `NaN` when chunkTotal = 0 and `+Inf` otherwise. -/
theorem percentage_rendering :
    percentText 10 50 = "20.00".toList ∧
    (∀ chunkTotal : Nat,
      percentText chunkTotal 0 = if chunkTotal = 0 then "NaN".toList else "+Inf".toList) ∧
    (∀ (t : CaseTables) (osSep : GoString) (order : List GoString) (file : GoString)
        (inputBytes : Option GoString) (r : Report),
      processFile t osSep order file inputBytes = .ok r → r.words = 0 →
      r.percent = if r.chunkTotal = 0 then "NaN".toList else "+Inf".toList) := by
  refine ⟨by decide, percentText_zero_words, ?_⟩
  intro t osSep order file inputBytes r hrun hw
  obtain ⟨name, st, _, _, _, e2, e3, _, e5⟩ := processFile_ok t osSep order file inputBytes r hrun
  rw [e5, ← e3, hw, e2]
  exact percentText_zero_words _

/-- C4, witness: the empty document checked against the dictionary holding the
empty line, whose chunk ` ` occurs once: 1 chunkword, 0 words, `+Inf`. -/
theorem percentage_rendering_witness :
    ∃ r, processFile asciiTables "/".toList [" ".toList] "input/doc.txt".toList (some []) = .ok r ∧
      r.words = 0 ∧ r.chunkTotal = 1 ∧ r.percent = "+Inf".toList :=
  ⟨_, rfl, rfl, rfl,
    percentage_rendering.2.2 asciiTables "/".toList [" ".toList] "input/doc.txt".toList
      (some []) _ rfl rfl⟩

/-! ## The rounds of `replaceAll` -/

theorem findFrom_bounds (t : CaseTables) (foldCase : Bool) (items : List Item) :
    ∀ (s : GoString) (pos a0 a1 : Nat),
      findFrom t foldCase items s pos = some (a0, a1) → pos ≤ a0 ∧ a1 = a0 + items.length := by
  intro s
  induction s with
  | nil =>
    intro pos a0 a1 h
    simp only [findFrom] at h
    split at h
    · injection h with h
      injection h with h1 h2
      subst h1 h2
      exact ⟨Nat.le_refl _, rfl⟩
    · exact absurd h (by simp)
  | cons c s ih =>
    intro pos a0 a1 h
    simp only [findFrom] at h
    split at h
    · injection h with h
      injection h with h1 h2
      subst h1 h2
      exact ⟨Nat.le_refl _, rfl⟩
    · obtain ⟨h1, h2⟩ := ih (pos + 1) a0 a1 h
      exact ⟨by omega, h2⟩

/-- The search position grows in every round, so the loop of `replaceAll` is
over after `len(src) + 2 - searchPos` rounds: more fuel does not change its
result. -/
theorem replaceAllLoop_fuel (t : CaseTables) (foldCase : Bool) (items : List Item)
    (src : GoString) (repl : GoString → GoString) :
    ∀ (fuel lastMatchEnd searchPos : Nat) (buf : GoString),
      src.length + 2 ≤ fuel + searchPos →
      replaceAllLoop t foldCase items src repl (fuel + 1) lastMatchEnd searchPos buf =
        replaceAllLoop t foldCase items src repl fuel lastMatchEnd searchPos buf := by
  intro fuel
  induction fuel with
  | zero =>
    intro last p buf h
    have hp : ¬ p ≤ src.length := by omega
    simp only [replaceAllLoop, if_neg hp]
  | succ fuel ih =>
    intro last p buf h
    rw [replaceAllLoop]
    conv_rhs => rw [replaceAllLoop]
    by_cases hp : p ≤ src.length
    · simp only [if_pos hp]
      cases hf : doExecute t foldCase items src p with
      | none => rfl
      | some a =>
        obtain ⟨a0, a1⟩ := a
        simp only
        obtain ⟨h1, h2⟩ := findFrom_bounds t foldCase items _ p a0 a1 hf
        apply ih
        split <;> split <;> (try split) <;> omega
    · simp only [if_neg hp]

/-! ## Highlighting -/

theorem wrapScan_fuel (t : CaseTables) (chunk : GoString) (hne : chunk ≠ []) :
    ∀ (f1 f2 : Nat) (s : GoString), s.length ≤ f1 → s.length ≤ f2 →
      wrapScan t chunk f1 s = wrapScan t chunk f2 s := by
  have hpos : 0 < chunk.length := List.length_pos.mpr hne
  intro f1
  induction f1 with
  | zero =>
    intro f2 s h1 _
    have hs : s = [] := List.length_eq_zero.mp (Nat.le_zero.mp h1)
    subst hs
    cases f2 <;> rfl
  | succ f1 ih =>
    intro f2 s h1 h2
    cases s with
    | nil => cases f2 <;> rfl
    | cons c s =>
      cases f2 with
      | zero => simp at h2
      | succ f2 =>
        simp only [List.length_cons, Nat.add_le_add_iff_right] at h1 h2
        simp only [wrapScan]
        have hd : ((c :: s).drop chunk.length).length ≤ s.length := by
          rw [List.length_drop, List.length_cons]; omega
        rw [ih f2 ((c :: s).drop chunk.length) (Nat.le_trans hd h1) (Nat.le_trans hd h2),
          ih f2 s h1 h2]

theorem wrapDisjoint_nil (t : CaseTables) (chunk : GoString) :
    wrapDisjointOccurrences t chunk [] = [] := rfl

theorem wrapDisjoint_cons (t : CaseTables) (chunk : GoString) (hne : chunk ≠ [])
    (c : Char) (s : GoString) :
    wrapDisjointOccurrences t chunk (c :: s) =
      if occursAt t chunk (c :: s) then
        highlightSpan ((c :: s).take chunk.length) ++
          wrapDisjointOccurrences t chunk ((c :: s).drop chunk.length)
      else c :: wrapDisjointOccurrences t chunk s := by
  have hpos : 0 < chunk.length := List.length_pos.mpr hne
  unfold wrapDisjointOccurrences
  simp only [List.length_cons, wrapScan]
  have hd : ((c :: s).drop chunk.length).length ≤ s.length := by
    rw [List.length_drop, List.length_cons]; omega
  rw [wrapScan_fuel t chunk hne s.length _ ((c :: s).drop chunk.length) hd (Nat.le_refl _)]

theorem matchHere_lit (t : CaseTables) (chunk s : GoString) :
    matchHere t true (chunk.map Item.lit) s = occursAt t chunk s := by
  induction chunk generalizing s with
  | nil => cases s <;> rfl
  | cons r rs ih =>
    cases s with
    | nil => rfl
    | cons c s =>
      simp only [List.map_cons, matchHere, occursAt, ih]
      congr 1
      simp [Item.matchRune, sameUpToCase]

theorem occursAt_length (t : CaseTables) (chunk s : GoString) (h : occursAt t chunk s = true) :
    chunk.length ≤ s.length := by
  induction chunk generalizing s with
  | nil => simp
  | cons r rs ih =>
    cases s with
    | nil => simp [occursAt] at h
    | cons c s =>
      simp only [occursAt, Bool.and_eq_true] at h
      simp only [List.length_cons, Nat.add_le_add_iff_right]
      exact ih s h.2

/-- What `findFrom` returns for the program of a literal chunk, in terms of the
wrapping of the text it searches. -/
theorem findFrom_lit (t : CaseTables) (chunk : GoString) (hne : chunk ≠ []) :
    ∀ (s : GoString) (pos : Nat),
      match findFrom t true (chunk.map Item.lit) s pos with
      | none => wrapDisjointOccurrences t chunk s = s
      | some (a0, a1) =>
        ∃ k, a0 = pos + k ∧ a1 = pos + k + chunk.length ∧ k + chunk.length ≤ s.length ∧
          wrapDisjointOccurrences t chunk s =
            s.take k ++ highlightSpan ((s.drop k).take chunk.length) ++
              wrapDisjointOccurrences t chunk (s.drop (k + chunk.length)) := by
  intro s
  induction s with
  | nil =>
    intro pos
    cases chunk with
    | nil => exact absurd rfl hne
    | cons r rs => simp [findFrom, matchHere, wrapDisjoint_nil]
  | cons c s ih =>
    intro pos
    simp only [findFrom, matchHere_lit, List.length_map]
    by_cases hm : occursAt t chunk (c :: s) = true
    · rw [if_pos hm]
      refine ⟨0, rfl, rfl, ?_, ?_⟩
      · simpa using occursAt_length t chunk _ hm
      · rw [wrapDisjoint_cons t chunk hne, if_pos hm]
        simp
    · rw [if_neg hm]
      have h := ih (pos + 1)
      cases hf : findFrom t true (chunk.map Item.lit) s (pos + 1) with
      | none =>
        rw [hf] at h
        simp only at h ⊢
        rw [wrapDisjoint_cons t chunk hne, if_neg hm, h]
      | some a =>
        obtain ⟨a0, a1⟩ := a
        rw [hf] at h
        simp only at h ⊢
        obtain ⟨k, h0, h1, h2, h3⟩ := h
        refine ⟨k + 1, by omega, by omega, by simp only [List.length_cons]; omega, ?_⟩
        rw [wrapDisjoint_cons t chunk hne, if_neg hm, h3]
        have e : k + 1 + chunk.length = (k + chunk.length) + 1 := by omega
        simp [e]

/-- The loop of `replaceAll` for the program of a literal chunk, started with the
search position at the end of the last match. -/
theorem replaceAllLoop_lit (t : CaseTables) (chunk : GoString) (hne : chunk ≠ [])
    (src : GoString) :
    ∀ (fuel p : Nat) (buf : GoString), p ≤ src.length → src.length + 2 ≤ fuel + p →
      replaceAllLoop t true (chunk.map Item.lit) src highlightSpan fuel p p buf =
        buf ++ wrapDisjointOccurrences t chunk (src.drop p) := by
  have hpos : 0 < chunk.length := List.length_pos.mpr hne
  intro fuel
  induction fuel with
  | zero => intro p buf h1 h2; omega
  | succ fuel ih =>
    intro p buf h1 h2
    simp only [replaceAllLoop, if_pos h1, doExecute]
    have h := findFrom_lit t chunk hne (src.drop p) p
    cases hf : findFrom t true (chunk.map Item.lit) (src.drop p) p with
    | none =>
      rw [hf] at h
      simp only at h ⊢
      rw [h]
    | some a =>
      obtain ⟨a0, a1⟩ := a
      rw [hf] at h
      simp only at h ⊢
      obtain ⟨k, h0, ha1, hk, hw⟩ := h
      rw [List.length_drop] at hk
      have g1 : a1 > p ∨ a0 = 0 := Or.inl (by omega)
      have g2 : ¬ (p + (if p < src.length then 1 else 0) > a1) := by
        split <;> omega
      have g3 : ¬ (p + 1 > a1) := by omega
      rw [if_pos g1, if_neg g2, if_neg g3, ih a1 _ (by omega) (by omega), hw]
      have e1 : a0 - p = k := by omega
      have e2 : a1 - a0 = chunk.length := by omega
      have e3 : src.drop a0 = (src.drop p).drop k := by
        rw [List.drop_drop, h0]
      have e4 : src.drop a1 = (src.drop p).drop (k + chunk.length) := by
        rw [List.drop_drop, ha1]; congr 1; omega
      rw [e1, e2, e3, e4]
      simp only [List.append_assoc]

theorem replaceAllStringFunc_lit (t : CaseTables) (chunk : GoString) (hne : chunk ≠ [])
    (src : GoString) :
    ReplaceAllStringFunc t true (chunk.map Item.lit) src highlightSpan =
      wrapDisjointOccurrences t chunk src := by
  unfold ReplaceAllStringFunc
  rw [replaceAllLoop_lit t chunk hne src _ 0 [] (Nat.zero_le _) (by omega)]
  simp

/-! ## Compiling a chunk without metacharacters -/

theorem collapseConcat_lit (l : GoString) :
    collapseConcat (litEntries l) = .flat (l.map Item.lit) := by
  induction l with
  | nil => rfl
  | cons c l ih =>
    cases l with
    | nil => rfl
    | cons d l =>
      simp only [litEntries, List.map_cons] at ih ⊢
      simp only [collapseConcat, ih]
      rfl

theorem litEntries_takeWhile (rev : GoString) :
    (litEntries rev).takeWhile Entry.isExpr = litEntries rev := by
  induction rev with
  | nil => rfl
  | cons c rev ih =>
    simp only [litEntries, List.map_cons] at ih ⊢
    rw [List.takeWhile_cons]
    simp only [Entry.isExpr, if_true, ih]

theorem litEntries_dropWhile (rev : GoString) :
    (litEntries rev).dropWhile Entry.isExpr = [] := by
  induction rev with
  | nil => rfl
  | cons c rev ih =>
    simp only [litEntries, List.map_cons] at ih ⊢
    rw [List.dropWhile_cons]
    simp only [Entry.isExpr, if_true, ih]

theorem closeAlternation_lit (rev : GoString) :
    closeAlternation (litEntries rev) = [.re (.flat (rev.reverse.map Item.lit))] := by
  have hrev : (litEntries rev).reverse = litEntries rev.reverse := by
    simp [litEntries]
  have hc : concat (litEntries rev) = [.re (.flat (rev.reverse.map Item.lit))] := by
    unfold concat
    rw [litEntries_takeWhile, litEntries_dropWhile, hrev, collapseConcat_lit]
  unfold closeAlternation
  rw [hc]
  rfl

theorem parseLoop_lit (foldCase : Bool) (chunk : GoString)
    (h : ∀ c ∈ chunk, metaRune c = false) :
    ∀ (rev : GoString) (last : LastRepeat),
      parseLoop foldCase chunk (litEntries rev) last =
        .ok foldCase ((rev.reverse ++ chunk).map Item.lit) := by
  induction chunk with
  | nil =>
    intro rev last
    simp only [parseLoop, closeAlternation_lit, List.append_nil]
  | cons c chunk ih =>
    intro rev last
    have hc : metaRune c = false := h c (List.mem_cons_self _ _)
    simp only [metaRune, Bool.decide_or, Bool.or_eq_false_iff, decide_eq_false_iff_not] at hc
    obtain ⟨_, h2, h3, h4, h5, h6, h7, h8, _⟩ := hc
    have hstep : parseLoop foldCase (c :: chunk) (litEntries rev) last =
        parseLoop foldCase chunk (litEntries (c :: rev)) .none := by
      simp only [parseLoop, h2, h3, h4, h5, h6, h7, h8, if_false, false_or, litEntries,
        List.map_cons, false_and]
    rw [hstep, ih (fun d hd => h d (List.mem_cons_of_mem _ hd))]
    simp

theorem hasFlagGroup_lit (chunk : GoString) (h : ∀ c ∈ chunk, metaRune c = false) :
    hasFlagGroup chunk = false := by
  induction chunk with
  | nil => rfl
  | cons c chunk ih =>
    have hc : metaRune c = false := h c (List.mem_cons_self _ _)
    have hp : c ≠ '(' := by
      intro e
      subst e
      exact absurd hc (by decide)
    have ih2 := ih (fun d hd => h d (List.mem_cons_of_mem _ hd))
    unfold hasFlagGroup
    split
    · rename_i heq
      injection heq with e1 _
      exact absurd e1 hp
    · rename_i heq
      injection heq with _ e2
      subst e2
      exact ih2
    · rename_i heq
      exact absurd heq (by simp)

theorem unmodelledRune_lit (chunk : GoString) (h : ∀ c ∈ chunk, metaRune c = false) :
    chunk.any unmodelledRune = false := by
  rw [List.any_eq_false]
  intro c hc
  have hm := h c hc
  simp only [metaRune, Bool.decide_or, Bool.or_eq_false_iff, decide_eq_false_iff_not] at hm
  simp [unmodelledRune, hm.1, hm.2.2.2.2.2.2.2.2.1, hm.2.2.2.2.2.2.2.2.2]

theorem regexpCompile_lit (chunk : GoString) (h : ∀ c ∈ chunk, metaRune c = false) :
    regexpCompile ("(?i)".toList ++ chunk) = .ok true (chunk.map Item.lit) := by
  have e1 : "(?i)".toList.isPrefixOf ("(?i)".toList ++ chunk) = true := by
    rw [List.isPrefixOf_iff_prefix]
    exact List.prefix_append _ _
  have e2 : ("(?i)".toList ++ chunk).drop 4 = chunk := rfl
  unfold regexpCompile
  simp only [e1, if_true, e2, unmodelledRune_lit chunk h, hasFlagGroup_lit chunk h]
  exact parseLoop_lit true chunk h [] .none

/-! ## Runs that complete -/

/-- The processing of a document completes when no chunk of the dictionary holds
a metacharacter and the path of the document has a second component. -/
theorem processFile_completes (t : CaseTables) (osSep : GoString) (order : List GoString)
    (file : GoString) (inputBytes : Option GoString) (name : GoString)
    (hname : fileName osSep file = .ok name)
    (hlit : ∀ chunk ∈ order, ∀ c ∈ chunk, metaRune c = false) :
    ∃ r, processFile t osSep order file inputBytes = .ok r := by
  have hruns : ∀ chunk ∈ order, stepRuns (ToLower t (Conv inputBytes)) chunk = true := by
    intro chunk hc
    unfold stepRuns
    rw [regexpCompile_lit chunk (hlit chunk hc)]
    simp
  obtain ⟨st, hl⟩ := chunkLoop_runs t (ToLower t (Conv inputBytes)) order
    (startState (Conv inputBytes)) hruns
  obtain ⟨r, hr, _⟩ := processFile_runs t osSep order file inputBytes name st hname hl
  exact ⟨r, hr⟩

/-- C2, counterexample: the chunk ` a a` occurs in ` a a a` at the offsets 0
and 2; the highlighting step wraps the first occurrence only, so its result is
not the text with every occurrence wrapped.  And the chunk ` a.c`, read as a
pattern, also wraps ` abc`, which is not an occurrence of the chunk. -/
theorem highlight_misses_overlapping_occurrence :
    highlight asciiTables " a a".toList " a a a".toList =
      .ok "<span style=\"background-color: #FFFF00\"> a a</span> a".toList ∧
    wrapEveryOccurrence asciiTables " a a".toList " a a a".toList =
      ("<span style=\"background-color: #FFFF00\"> a" ++
        "<span style=\"background-color: #FFFF00\"> a</span> a</span>").toList ∧
    highlight asciiTables " a a".toList " a a a".toList ≠
      .ok (wrapEveryOccurrence asciiTables " a a".toList " a a a".toList) ∧
    highlight asciiTables " a.c".toList " a.c abc".toList =
      .ok ("<span style=\"background-color: #FFFF00\"> a.c</span>" ++
        "<span style=\"background-color: #FFFF00\"> abc</span>").toList ∧
    highlight asciiTables " a.c".toList " a.c abc".toList ≠
      .ok (wrapEveryOccurrence asciiTables " a.c".toList " a.c abc".toList) := by
  decide

/-- C2, amended: for every non-empty chunk without a regular-expression
metacharacter and every original-case text, the highlighting step wraps, from
left to right, every case-insensitive occurrence of the chunk that starts at or
after the end of the occurrence wrapped before it, in
`<span style="background-color: #FFFF00">…</span>`; it wraps the matched
substring in its original case and leaves all other text unchanged.  In
particular the chunk ` was always` highlights ` Was Always`, ` WAS ALWAYS` and
` was always`. -/
theorem highlight_wraps_disjoint_occurrences (t : CaseTables) (chunk text : GoString)
    (hne : chunk ≠ []) (hlit : ∀ c ∈ chunk, metaRune c = false) :
    highlight t chunk text = .ok (wrapDisjointOccurrences t chunk text) ∧
    highlight asciiTables " was always".toList
        " It Was Always, WAS ALWAYS and was always".toList =
      .ok (" It<span style=\"background-color: #FFFF00\"> Was Always</span>," ++
        "<span style=\"background-color: #FFFF00\"> WAS ALWAYS</span> and" ++
        "<span style=\"background-color: #FFFF00\"> was always</span>").toList := by
  refine ⟨?_, by decide⟩
  unfold highlight
  rw [regexpCompile_lit chunk hlit]
  simp only
  rw [replaceAllStringFunc_lit t chunk hne text]

/-- C2, witness: the chunk ` was always` of the dictionary line `Was Always`. -/
theorem highlight_wraps_disjoint_occurrences_witness :
    CleanChunks asciiTables "Was Always".toList ≠ [] ∧
    (∀ c ∈ CleanChunks asciiTables "Was Always".toList, metaRune c = false) ∧
    highlight asciiTables (CleanChunks asciiTables "Was Always".toList)
        " It WAS ALWAYS so, it was always so".toList =
      .ok (wrapDisjointOccurrences asciiTables (CleanChunks asciiTables "Was Always".toList)
        " It WAS ALWAYS so, it was always so".toList) :=
  ⟨by decide, by decide,
    (highlight_wraps_disjoint_occurrences asciiTables
      (CleanChunks asciiTables "Was Always".toList)
      " It WAS ALWAYS so, it was always so".toList (by decide) (by decide)).1⟩

/-! ## The name of the output files -/

theorem index_single (o : Char) (s : GoString) :
    match Index s [o] with
    | none => o ∉ s
    | some j => ∃ pre post, s = pre ++ o :: post ∧ o ∉ pre ∧ j = pre.length := by
  induction s with
  | nil => simp [Index]
  | cons c s ih =>
    have e : Index (c :: s) [o] =
        if [o].isPrefixOf (c :: s) then some 0 else (Index s [o]).map (· + 1) := rfl
    rw [e]
    have hp : [o].isPrefixOf (c :: s) = (o == c) := by
      simp [List.isPrefixOf]
    rw [hp]
    by_cases hc : o = c
    · subst hc
      simp only [beq_self_eq_true, if_true]
      exact ⟨[], s, rfl, by simp, rfl⟩
    · have hb : (o == c) = false := by simpa using hc
      simp only [hb, Bool.false_eq_true, if_false]
      cases hi : Index s [o] with
      | none =>
        rw [hi] at ih
        simp only [Option.map_none']
        simp only at ih
        simp [hc, ih]
      | some j =>
        rw [hi] at ih
        simp only [Option.map_some']
        obtain ⟨pre, post, h1, h2, h3⟩ := ih
        refine ⟨c :: pre, post, by rw [h1]; rfl, ?_, by simp [h3]⟩
        simp [hc, h2]

theorem index_single_of_not_mem (o : Char) (pre post : GoString) (h : o ∉ pre) :
    Index (pre ++ o :: post) [o] = some pre.length := by
  induction pre with
  | nil => simp [Index, List.isPrefixOf]
  | cons c pre ih =>
    have hc : o ≠ c := fun e => h (by simp [e])
    have hpre : o ∉ pre := fun e => h (by simp [e])
    have e : Index (c :: (pre ++ o :: post)) [o] =
        if [o].isPrefixOf (c :: (pre ++ o :: post)) then some 0
        else (Index (pre ++ o :: post) [o]).map (· + 1) := rfl
    rw [List.cons_append, e, ih hpre]
    simp [List.isPrefixOf, hc]

theorem index_single_none (o : Char) (s : GoString) (h : o ∉ s) : Index s [o] = none := by
  have h2 := index_single o s
  cases hi : Index s [o] with
  | none => rfl
  | some j =>
    rw [hi] at h2
    obtain ⟨pre, post, h1, _, _⟩ := h2
    exact absurd (by rw [h1]; simp) h

theorem splitLoop_none (sep s : GoString) (n : Nat) (h : Index s sep = none) :
    splitLoop sep n s = [s] := by
  cases n with
  | zero => rfl
  | succ n => simp [splitLoop, h]

theorem take_drop_at (o : Char) (pre post : GoString) :
    (pre ++ o :: post).take pre.length = pre ∧
    (pre ++ o :: post).drop (pre.length + 1) = post := by
  induction pre with
  | nil => exact ⟨rfl, rfl⟩
  | cons c pre ih =>
    simp only [List.cons_append, List.length_cons, List.take_succ_cons, List.drop_succ_cons]
    exact ⟨by rw [ih.1], ih.2⟩

theorem split_two (sep : Char) (dir base : GoString) (hdir : sep ∉ dir) (hbase : sep ∉ base) :
    Split (dir ++ [sep] ++ base) [sep] = [dir, base] := by
  have hs : dir ++ [sep] ++ base = dir ++ sep :: base := by simp
  have hi : Index (dir ++ sep :: base) [sep] = some dir.length :=
    index_single_of_not_mem sep dir base hdir
  have hc : 1 ≤ Count (dir ++ sep :: base) [sep] :=
    count_pos_of_contains _ _ (by simp [Contains, hi])
  obtain ⟨n, hn⟩ : ∃ n, Count (dir ++ sep :: base) [sep] = n + 1 :=
    ⟨_, (Nat.sub_add_cancel hc).symm⟩
  unfold Split
  rw [if_neg (List.cons_ne_nil sep []), hs, hn]
  have e : splitLoop [sep] (n + 1) (dir ++ sep :: base) =
      (dir ++ sep :: base).take dir.length ::
        splitLoop [sep] n ((dir ++ sep :: base).drop (dir.length + 1)) := by
    simp only [splitLoop, hi, List.length_singleton]
  rw [e, (take_drop_at sep dir base).1, (take_drop_at sep dir base).2,
    splitLoop_none _ _ _ (index_single_none sep base hbase)]

theorem disjointCount_single (o : Char) (s : GoString) :
    disjointCount [o] 0 s = s.count o := by
  induction s with
  | nil => rfl
  | cons c s ih =>
    simp only [disjointCount, List.isPrefixOf, List.length_singleton, Nat.sub_self,
      Bool.and_true, ih, List.count_cons]
    by_cases hc : o = c
    · subst hc; simp; omega
    · have hb : (o == c) = false := by simpa using hc
      have hb2 : (c == o) = false := by simpa using fun e => hc e.symm
      simp [hb, hb2]

theorem map_replace_of_not_mem (o n : Char) (s : GoString) (h : o ∉ s) :
    s.map (fun c => if c = o then n else c) = s := by
  induction s with
  | nil => rfl
  | cons c s ih =>
    have hc : c ≠ o := fun e => h (by simp [e])
    have hs : o ∉ s := fun e => h (by simp [e])
    simp only [List.map_cons, if_neg hc, ih hs]

theorem replaceLoop_single (o n : Char) :
    ∀ (fuel : Nat) (s : GoString), s.count o ≤ fuel →
      replaceLoop [o] [n] fuel s = s.map (fun c => if c = o then n else c) := by
  intro fuel
  induction fuel with
  | zero =>
    intro s h
    have hm : o ∉ s := List.count_eq_zero.mp (Nat.le_zero.mp h)
    rw [map_replace_of_not_mem o n s hm]
    rfl
  | succ fuel ih =>
    intro s h
    have h2 := index_single o s
    cases hi : Index s [o] with
    | none =>
      rw [hi] at h2
      rw [map_replace_of_not_mem o n s h2]
      simp only [replaceLoop, hi]
    | some j =>
      rw [hi] at h2
      obtain ⟨pre, post, h1, hpre, hj⟩ := h2
      subst h1 hj
      have hcount : post.count o ≤ fuel := by
        rw [List.count_append, List.count_cons_self, List.count_eq_zero.mpr hpre] at h
        omega
      have e : replaceLoop [o] [n] (fuel + 1) (pre ++ o :: post) =
          (pre ++ o :: post).take pre.length ++ [n] ++
            replaceLoop [o] [n] fuel ((pre ++ o :: post).drop (pre.length + 1)) := by
        simp only [replaceLoop, hi, List.length_singleton]
      rw [e, (take_drop_at o pre post).1, (take_drop_at o pre post).2, ih post hcount,
        List.map_append, List.map_cons, map_replace_of_not_mem o n pre hpre]
      simp

theorem replaceAll_dot (base : GoString) :
    ReplaceAll base ".".toList "-".toList = base.map dotToDash := by
  unfold ReplaceAll
  rw [if_neg (by decide)]
  have hc : Count base ".".toList = base.count '.' := by
    rw [count_eq_disjointCount _ _ (by decide)]
    exact disjointCount_single '.' base
  rw [hc]
  exact replaceLoop_single '.' '-' _ base (Nat.le_refl _)

theorem fileName_top_level (sep : Char) (dir base : GoString) (hdir : sep ∉ dir)
    (hbase : sep ∉ base) :
    fileName [sep] (dir ++ [sep] ++ base) = .ok (base.map dotToDash) := by
  unfold fileName
  simp only [split_two sep dir base hdir hbase]
  rw [show [dir, base].get? 1 = some base from rfl]
  simp only [replaceAll_dot]

theorem processFile_paths (t : CaseTables) (osSep : GoString) (order : List GoString)
    (file : GoString) (inputBytes : Option GoString) (r : Report)
    (h : processFile t osSep order file inputBytes = .ok r) :
    ∃ name, fileName osSep file = .ok name ∧
      r.htmlPath = "output".toList ++ osSep ++ "result_".toList ++ name ++ ".html".toList ∧
      r.csvPath = "output".toList ++ osSep ++ "stats_".toList ++ name ++ ".csv".toList ∧
      r.statPath = "output".toList ++ osSep ++ "stats_".toList ++ name ++ ".txt".toList := by
  unfold processFile at h
  generalize fileName osSep file = fn at h ⊢
  cases fn with
  | ok name =>
    simp only at h
    generalize chunkLoop t (ToLower t (Conv inputBytes)) order (startState (Conv inputBytes)) = lr
      at h
    cases lr with
    | ok st =>
      injection h with h
      subst h
      exact ⟨name, rfl, rfl, rfl, rfl⟩
    | crash => exact absurd h (by simp)
    | unmodelled => exact absurd h (by simp)
  | crash => exact absurd h (by simp)
  | unmodelled => exact absurd h (by simp)

/-- C8, counterexample: the nested documents `input/sub/a.txt` and
`input/sub/b.txt` are enumerated and both get the name `sub`, not `a-txt` and
`b-txt`; and the documents `input/a.b.txt` and `input/a-b.txt`, whose base names
differ, both get the name `a-b-txt`. -/
theorem output_name_is_not_always_the_base_name :
    Docs ["input".toList, "input/sub".toList, "input/sub/a.txt".toList,
        "input/sub/b.txt".toList, "input/sub/notes.md".toList] =
      some ["input/sub/a.txt".toList, "input/sub/b.txt".toList] ∧
    fileName "/".toList "input/sub/a.txt".toList = .ok "sub".toList ∧
    fileName "/".toList "input/sub/b.txt".toList = .ok "sub".toList ∧
    fileName "/".toList "input/sub/a.txt".toList ≠ .ok "a-txt".toList ∧
    (processFile asciiTables "/".toList [] "input/sub/a.txt".toList (some "x".toList)).val?.map
        (fun r => (r.htmlPath, r.csvPath, r.statPath)) =
      some ("output/result_sub.html".toList, "output/stats_sub.csv".toList,
        "output/stats_sub.txt".toList) ∧
    fileName "/".toList "input/a.b.txt".toList = .ok "a-b-txt".toList ∧
    fileName "/".toList "input/a-b.txt".toList = .ok "a-b-txt".toList := by
  decide

/-- C8, amended: for every document directly under the input directory (a path
`input<sep><base>` where `<base>` holds no separator) the name used in
`result_<name>.html`, `stats_<name>.csv` and `stats_<name>.txt` is the base
name with every `.` replaced by `-`; e.g. `input/a.txt` yields `a-txt`.  Two such
documents have the same name exactly when their base names are equal after
the replacement. -/
theorem top_level_document_name (t : CaseTables) (sep : Char) (base : GoString)
    (order : List GoString) (inputBytes : Option GoString) (r : Report)
    (hsep : sep ∉ "input".toList) (hbase : sep ∉ base)
    (hrun : processFile t [sep] order ("input".toList ++ [sep] ++ base) inputBytes = .ok r) :
    fileName [sep] ("input".toList ++ [sep] ++ base) = .ok (base.map dotToDash) ∧
    r.htmlPath =
      "output".toList ++ [sep] ++ "result_".toList ++ base.map dotToDash ++ ".html".toList ∧
    r.csvPath =
      "output".toList ++ [sep] ++ "stats_".toList ++ base.map dotToDash ++ ".csv".toList ∧
    r.statPath =
      "output".toList ++ [sep] ++ "stats_".toList ++ base.map dotToDash ++ ".txt".toList ∧
    (∀ base2 : GoString, sep ∉ base2 →
      (fileName [sep] ("input".toList ++ [sep] ++ base2) =
          fileName [sep] ("input".toList ++ [sep] ++ base) ↔
        base2.map dotToDash = base.map dotToDash)) ∧
    fileName "/".toList "input/a.txt".toList = .ok "a-txt".toList := by
  have hn := fileName_top_level sep "input".toList base hsep hbase
  obtain ⟨name, h1, h2, h3, h4⟩ := processFile_paths t [sep] order _ inputBytes r hrun
  rw [hn] at h1
  injection h1 with h1
  subst h1
  refine ⟨hn, h2, h3, h4, ?_, by decide⟩
  intro base2 hb2
  rw [hn, fileName_top_level sep "input".toList base2 hsep hb2]
  constructor
  · intro h; injection h
  · intro h; rw [h]

/-- C8, witness: the document `input/notes.v2.txt`. -/
theorem top_level_document_name_witness :
    ∃ r, processFile asciiTables "/".toList [] "input/notes.v2.txt".toList
        (some "some text".toList) = .ok r ∧
      r.htmlPath = "output/result_notes-v2-txt.html".toList ∧
      r.csvPath = "output/stats_notes-v2-txt.csv".toList ∧
      r.statPath = "output/stats_notes-v2-txt.txt".toList :=
  have h := top_level_document_name asciiTables '/' "notes.v2.txt".toList []
    (some "some text".toList) _ (by decide) (by decide) rfl
  ⟨_, rfl, h.2.1, h.2.2.1, h.2.2.2.1⟩

/-! ## Runs with the whole of package `regexp` -/

theorem chunkStepWith_cases (rest : RegexpRest) (t : CaseTables) (inputCheck chunk : GoString)
    (st : LoopState) :
    (stepRunsWith rest t inputCheck chunk = true ∧
      ∃ st1, chunkStepWith rest t inputCheck st chunk = .ok st1 ∧
        st1.records = st.records ++ stepRecords inputCheck chunk ∧
        st1.chunkTotal = st.chunkTotal + stepWords inputCheck chunk) ∨
    (stepRunsWith rest t inputCheck chunk = false ∧
      chunkStepWith rest t inputCheck st chunk = .crash) := by
  unfold chunkStepWith highlightWith stepRunsWith stepRecords stepWords
  generalize compileWith rest t ("(?i)".toList ++ chunk) = cr
  by_cases hc : Contains inputCheck chunk = true
  · rw [if_pos hc, if_pos hc, if_pos hc, if_pos hc]
    cases cr with
    | some f => exact Or.inl ⟨rfl, _, rfl, rfl, rfl⟩
    | none => exact Or.inr ⟨rfl, rfl⟩
  · rw [if_neg hc, if_neg hc, if_neg hc, if_neg hc]
    exact Or.inl ⟨rfl, st, rfl, by simp, by simp⟩

theorem chunkLoopWith_runs (rest : RegexpRest) (t : CaseTables) (inputCheck : GoString)
    (order : List GoString) (st : LoopState)
    (h : ∀ chunk ∈ order, stepRunsWith rest t inputCheck chunk = true) :
    ∃ st1, chunkLoopWith rest t inputCheck order st = .ok st1 ∧
      st1.records = st.records ++ order.flatMap (stepRecords inputCheck) ∧
      st1.chunkTotal = st.chunkTotal + (order.map (stepWords inputCheck)).sum := by
  induction order generalizing st with
  | nil => exact ⟨st, rfl, by simp, by simp⟩
  | cons chunk more ih =>
    have hrun := h chunk (List.mem_cons_self _ _)
    rcases chunkStepWith_cases rest t inputCheck chunk st with
      ⟨_, st2, hs, hrec, htot⟩ | ⟨hno, _⟩
    · obtain ⟨st1, hl, hrec1, htot1⟩ := ih st2 (fun c hc => h c (List.mem_cons_of_mem _ hc))
      refine ⟨st1, by simp only [chunkLoopWith, hs, hl], ?_, ?_⟩
      · rw [hrec1, hrec, List.flatMap_cons, List.append_assoc]
      · rw [htot1, htot, List.map_cons, List.sum_cons, Nat.add_assoc]
    · rw [hrun] at hno
      exact absurd hno (by simp)

theorem chunkLoopWith_crashes (rest : RegexpRest) (t : CaseTables) (inputCheck : GoString)
    (order : List GoString) (st : LoopState)
    (h : ∃ chunk ∈ order, stepRunsWith rest t inputCheck chunk = false) :
    chunkLoopWith rest t inputCheck order st = .crash := by
  induction order generalizing st with
  | nil =>
    obtain ⟨c, hc, _⟩ := h
    exact absurd hc (List.not_mem_nil c)
  | cons chunk more ih =>
    rcases chunkStepWith_cases rest t inputCheck chunk st with
      ⟨hyes, st2, hs, _, _⟩ | ⟨_, hs⟩
    · have hmore : ∃ c ∈ more, stepRunsWith rest t inputCheck c = false := by
        obtain ⟨c, hc, hno⟩ := h
        rcases List.mem_cons.mp hc with rfl | hc
        · rw [hyes] at hno
          exact absurd hno (by simp)
        · exact ⟨c, hc, hno⟩
      simp only [chunkLoopWith, hs]
      exact ih st2 hmore
    · simp only [chunkLoopWith, hs]

theorem fileName_ne_unmodelled (osSep file : GoString) :
    fileName osSep file ≠ .unmodelled := by
  intro h
  unfold fileName at h
  simp only at h
  generalize (Split file osSep).get? 1 = piece at h
  cases piece <;> cases h

/-- A run of `processFileWith` ends in `crash`, when the path has no second
component or an occurring chunk does not compile, and otherwise in `ok` with
the records and counts of the chunks that occur. -/
theorem processFileWith_cases (rest : RegexpRest) (t : CaseTables) (osSep : GoString)
    (order : List GoString) (file : GoString) (inputBytes : Option GoString) :
    (processFileWith rest t osSep order file inputBytes = .crash ∧
      (fileName osSep file = .crash ∨
        ∃ chunk ∈ order, stepRunsWith rest t (ToLower t (Conv inputBytes)) chunk = false)) ∨
    (∃ r name, processFileWith rest t osSep order file inputBytes = .ok r ∧
      fileName osSep file = .ok name ∧
      (∀ chunk ∈ order, stepRunsWith rest t (ToLower t (Conv inputBytes)) chunk = true) ∧
      r.records = ["chunk".toList, "length".toList, "frequency".toList] ::
        order.flatMap (stepRecords (ToLower t (Conv inputBytes))) ∧
      r.chunkTotal = (order.map (stepWords (ToLower t (Conv inputBytes)))).sum ∧
      r.words = (Fields (Conv inputBytes)).length ∧
      r.checked = order.length ∧
      r.percent = percentText r.chunkTotal r.words) := by
  unfold processFileWith
  cases hn : fileName osSep file with
  | unmodelled => exact absurd hn (fileName_ne_unmodelled osSep file)
  | crash => exact Or.inl ⟨rfl, Or.inl rfl⟩
  | ok name =>
    simp only
    by_cases hall : ∀ chunk ∈ order,
        stepRunsWith rest t (ToLower t (Conv inputBytes)) chunk = true
    · obtain ⟨st, hl, hrec, htot⟩ := chunkLoopWith_runs rest t (ToLower t (Conv inputBytes))
        order (startState (Conv inputBytes)) hall
      rw [hl]
      refine Or.inr ⟨_, name, rfl, rfl, hall, ?_, ?_, rfl, rfl, rfl⟩
      · rw [hrec]; rfl
      · rw [htot]; simp [startState]
    · have hex : ∃ chunk ∈ order,
          stepRunsWith rest t (ToLower t (Conv inputBytes)) chunk = false := by
        by_contra hne
        apply hall
        intro c hc
        cases hr : stepRunsWith rest t (ToLower t (Conv inputBytes)) c with
        | true => rfl
        | false => exact absurd ⟨c, hc, hr⟩ hne
      rw [chunkLoopWith_crashes rest t _ order _ hex]
      exact Or.inl ⟨rfl, Or.inr hex⟩

/-- A run that `processFile` decides is decided in the same way by
`processFileWith`, whatever `rest` is. -/
theorem chunkLoop_with (rest : RegexpRest) (t : CaseTables) (inputCheck : GoString)
    (order : List GoString) (st : LoopState) :
    chunkLoop t inputCheck order st = .unmodelled ∨
      chunkLoopWith rest t inputCheck order st = chunkLoop t inputCheck order st := by
  induction order generalizing st with
  | nil => exact Or.inr rfl
  | cons chunk more ih =>
    have hstep : chunkStep t inputCheck st chunk = .unmodelled ∨
        chunkStepWith rest t inputCheck st chunk = chunkStep t inputCheck st chunk := by
      unfold chunkStep chunkStepWith highlight highlightWith compileWith
      by_cases hc : Contains inputCheck chunk = true
      · rw [if_pos hc, if_pos hc]
        cases regexpCompile ("(?i)".toList ++ chunk) with
        | ok foldCase items => exact Or.inr rfl
        | error => exact Or.inr rfl
        | unmodelled => exact Or.inl rfl
      · rw [if_neg hc, if_neg hc]
        exact Or.inr rfl
    rcases hstep with hu | he
    · exact Or.inl (by simp only [chunkLoop, hu])
    · cases hs : chunkStep t inputCheck st chunk with
      | ok st1 =>
        rw [hs] at he
        rcases ih st1 with hu | he2
        · exact Or.inl (by simp only [chunkLoop, hs, hu])
        · exact Or.inr (by simp only [chunkLoop, chunkLoopWith, hs, he, he2])
      | crash =>
        rw [hs] at he
        exact Or.inr (by simp only [chunkLoop, chunkLoopWith, hs, he])
      | unmodelled => exact Or.inl (by simp only [chunkLoop, hs])

theorem processFile_with (rest : RegexpRest) (t : CaseTables) (osSep : GoString)
    (order : List GoString) (file : GoString) (inputBytes : Option GoString) :
    processFile t osSep order file inputBytes = .unmodelled ∨
      processFileWith rest t osSep order file inputBytes =
        processFile t osSep order file inputBytes := by
  unfold processFile processFileWith
  cases fileName osSep file with
  | unmodelled => exact Or.inl rfl
  | crash => exact Or.inr rfl
  | ok name =>
    simp only
    rcases chunkLoop_with rest t (ToLower t (Conv inputBytes)) order
      (startState (Conv inputBytes)) with hu | he
    · rw [hu]; exact Or.inl rfl
    · rw [he]; exact Or.inr rfl

/-- C1, amended: for every chunk `C` of the dictionary and every document whose
processing completes: if the lowercased, space-prefixed content of the document
contains `C` as a substring, the frequency table has a row for `C` (the trimmed
chunk, its length, its frequency); the frequency is at least 1 and is the
number of occurrences of `C` counted from left to right without overlap, which
is at most the number of positions at which `C` occurs.  The run is any run of
the program: what package `regexp` does outside the modelled fragment is the
parameter `rest`. -/
theorem frequency_counts_disjoint_occurrences (rest : RegexpRest) (t : CaseTables)
    (osSep : GoString) (lines order : List GoString) (file : GoString)
    (inputBytes : Option GoString) (r : Report) (chunk : GoString)
    (hord : IsRangeOrder (ImportDb t lines) order)
    (hmem : chunk ∈ ImportDb t lines)
    (hsub : chunk <:+: ToLower t (Conv inputBytes))
    (hrun : processFileWith rest t osSep order file inputBytes = .ok r) :
    [TrimSpace chunk, Itoa (utf8Len chunk), Itoa (Count (ToLower t (Conv inputBytes)) chunk)]
      ∈ r.records.tail ∧
    1 ≤ Count (ToLower t (Conv inputBytes)) chunk ∧
    Count (ToLower t (Conv inputBytes)) chunk =
      disjointCount chunk 0 (ToLower t (Conv inputBytes)) ∧
    Count (ToLower t (Conv inputBytes)) chunk ≤
      occurrences chunk (ToLower t (Conv inputBytes)) := by
  have hc : Contains (ToLower t (Conv inputBytes)) chunk = true :=
    (contains_iff_substring _ _).mpr hsub
  have hne : chunk ≠ [] := by
    obtain ⟨line, _, rfl⟩ := (mem_importDb t lines chunk).mp hmem
    exact cleanChunks_ne_nil t line
  have hin : chunk ∈ order := by
    have := hord.2 ▸ hmem
    exact List.mem_toFinset.mp this
  refine ⟨?_, count_pos_of_contains _ _ hc, count_eq_disjointCount _ _ hne, ?_⟩
  · rcases processFileWith_cases rest t osSep order file inputBytes with
      ⟨hcrash, _⟩ | ⟨r2, name, hok, _, _, hrec, _⟩
    · rw [hcrash] at hrun
      exact absurd hrun (by simp)
    · rw [hok] at hrun
      injection hrun with hrun
      subst hrun
      rw [hrec]
      simp only [List.tail_cons, List.mem_flatMap]
      exact ⟨chunk, hin, by simp [stepRecords, hc, recordOf]⟩
  · rw [count_eq_disjointCount _ _ hne]
    exact disjointCount_le_occurrences chunk 0 _

/-- C1, witness: the dictionary lines `good` and `(x)` and the document
`Good f (x) x good`.  The chunk ` (x)` gives an expression with a group, which
`groupRest` compiles; the run completes and the table has the row `(x),4,1`. -/
theorem frequency_counts_disjoint_occurrences_witness :
    IsRangeOrder (ImportDb asciiTables ["good".toList, "(x)".toList])
      [" good".toList, " (x)".toList] ∧
    " (x)".toList ∈ ImportDb asciiTables ["good".toList, "(x)".toList] ∧
    " (x)".toList <:+: ToLower asciiTables (Conv (some "Good f (x) x good".toList)) ∧
    processFile asciiTables "/".toList [" good".toList, " (x)".toList] "input/doc.txt".toList
      (some "Good f (x) x good".toList) = .unmodelled ∧
    ∃ r, processFileWith groupRest asciiTables "/".toList [" good".toList, " (x)".toList]
        "input/doc.txt".toList (some "Good f (x) x good".toList) = .ok r ∧
      [TrimSpace " (x)".toList, Itoa (utf8Len " (x)".toList),
        Itoa (Count (ToLower asciiTables (Conv (some "Good f (x) x good".toList)))
          " (x)".toList)] ∈ r.records.tail ∧
      r.records.tail = [["good".toList, "5".toList, "2".toList],
        ["(x)".toList, "4".toList, "1".toList]] :=
  ⟨by decide, by decide, (contains_iff_substring _ _).mp (by decide), by decide, _, rfl,
    (frequency_counts_disjoint_occurrences groupRest asciiTables "/".toList
      ["good".toList, "(x)".toList] [" good".toList, " (x)".toList] "input/doc.txt".toList
      (some "Good f (x) x good".toList) _ " (x)".toList (by decide) (by decide)
      ((contains_iff_substring _ _).mp (by decide)) rfl).1, rfl⟩

/-- C9: the final counts of a document do not depend on the order in which the
chunk set is ranged over.  For every document and every two orders of the same
dictionary, either both runs end in a panic (an occurring chunk does not
compile, or the path has no second component) and write no counts, or both
runs complete, with the same chunkwords total, the same word count, the same
number of chunks checked (the size of the dictionary) and the same percentage,
and their frequency tables have the same header row and data rows that are a
permutation of each other.  The runs are any runs of the program: what package
`regexp` does outside the modelled fragment is the parameter `rest`. -/
theorem counts_do_not_depend_on_range_order (rest : RegexpRest) (t : CaseTables)
    (osSep : GoString) (chunks : Finset GoString) (order1 order2 : List GoString)
    (file : GoString) (inputBytes : Option GoString)
    (h1 : IsRangeOrder chunks order1) (h2 : IsRangeOrder chunks order2) :
    (processFileWith rest t osSep order1 file inputBytes = .crash ∧
      processFileWith rest t osSep order2 file inputBytes = .crash) ∨
    ∃ r1 r2, processFileWith rest t osSep order1 file inputBytes = .ok r1 ∧
      processFileWith rest t osSep order2 file inputBytes = .ok r2 ∧
      r2.chunkTotal = r1.chunkTotal ∧ r2.words = r1.words ∧ r2.checked = r1.checked ∧
      r2.checked = chunks.card ∧ r2.percent = r1.percent ∧
      r1.records.head? = some ["chunk".toList, "length".toList, "frequency".toList] ∧
      r2.records.head? = some ["chunk".toList, "length".toList, "frequency".toList] ∧
      r2.records.tail.Perm r1.records.tail := by
  have hp : order1.Perm order2 := h1.perm h2
  have hcard : order2.length = chunks.card := by
    rw [← h2.2, List.card_toFinset, List.Nodup.dedup h2.1]
  rcases processFileWith_cases rest t osSep order1 file inputBytes with
    ⟨hc1, hwhy⟩ | ⟨r1, name, hok1, hn1, hall1, hrec1, htot1, hw1, hch1, hpc1⟩
  · rcases processFileWith_cases rest t osSep order2 file inputBytes with
      ⟨hc2, _⟩ | ⟨r2, name2, _, hn2, hall2, _⟩
    · exact Or.inl ⟨hc1, hc2⟩
    · rcases hwhy with hn | ⟨c, hc, hno⟩
      · rw [hn] at hn2
        exact absurd hn2 (by simp)
      · rw [hall2 c (hp.mem_iff.mp hc)] at hno
        exact absurd hno (by simp)
  · rcases processFileWith_cases rest t osSep order2 file inputBytes with
      ⟨_, hwhy⟩ | ⟨r2, name2, hok2, _, _, hrec2, htot2, hw2, hch2, hpc2⟩
    · rcases hwhy with hn | ⟨c, hc, hno⟩
      · rw [hn] at hn1
        exact absurd hn1 (by simp)
      · rw [hall1 c (hp.mem_iff.mpr hc)] at hno
        exact absurd hno (by simp)
    · have htot : r2.chunkTotal = r1.chunkTotal := by
        rw [htot1, htot2, (hp.map (stepWords _)).sum_eq]
      have hw : r2.words = r1.words := by rw [hw1, hw2]
      refine Or.inr ⟨r1, r2, hok1, hok2, htot, hw, ?_, ?_, ?_, ?_, ?_, ?_⟩
      · rw [hch1, hch2, hp.length_eq]
      · rw [hch2, hcard]
      · rw [hpc1, hpc2, htot, hw]
      · rw [hrec1]; rfl
      · rw [hrec2]; rfl
      · rw [hrec1, hrec2]
        simp only [List.tail_cons]
        exact (hp.flatMap_right _).symm

/-- C9, witness: the dictionary with the lines `good` and `(x)`, ranged over in
both orders, on the document `Good f (x) x good`.  The chunk ` (x)` gives an
expression with a group, which `groupRest` compiles; both runs complete, the
counts agree and the data rows come in different orders. -/
theorem counts_do_not_depend_on_range_order_witness :
    IsRangeOrder (ImportDb asciiTables ["good".toList, "(x)".toList])
      [" good".toList, " (x)".toList] ∧
    IsRangeOrder (ImportDb asciiTables ["good".toList, "(x)".toList])
      [" (x)".toList, " good".toList] ∧
    (processFileWith groupRest asciiTables "/".toList [" good".toList, " (x)".toList]
        "input/doc.txt".toList (some "Good f (x) x good".toList)).val?.map
      (fun r => (r.chunkTotal, r.words, r.records.tail)) =
      some (3, 5, [["good".toList, "5".toList, "2".toList],
        ["(x)".toList, "4".toList, "1".toList]]) ∧
    (processFileWith groupRest asciiTables "/".toList [" (x)".toList, " good".toList]
        "input/doc.txt".toList (some "Good f (x) x good".toList)).val?.map
      (fun r => (r.chunkTotal, r.words, r.records.tail)) =
      some (3, 5, [["(x)".toList, "4".toList, "1".toList],
        ["good".toList, "5".toList, "2".toList]]) ∧
    ∃ r1 r2,
      processFileWith groupRest asciiTables "/".toList [" good".toList, " (x)".toList]
        "input/doc.txt".toList (some "Good f (x) x good".toList) = .ok r1 ∧
      processFileWith groupRest asciiTables "/".toList [" (x)".toList, " good".toList]
        "input/doc.txt".toList (some "Good f (x) x good".toList) = .ok r2 ∧
      r2.chunkTotal = r1.chunkTotal ∧ r2.words = r1.words ∧ r2.checked = r1.checked ∧
      r2.records.tail.Perm r1.records.tail := by
  refine ⟨by decide, by decide, by decide, by decide, ?_⟩
  rcases counts_do_not_depend_on_range_order groupRest asciiTables "/".toList
      (ImportDb asciiTables ["good".toList, "(x)".toList])
      [" good".toList, " (x)".toList] [" (x)".toList, " good".toList]
      "input/doc.txt".toList (some "Good f (x) x good".toList)
      (by decide) (by decide) with ⟨hc, _⟩ | ⟨r1, r2, h1, h2, e1, e2, e3, _, _, _, _, e8⟩
  · exact absurd hc (by decide)
  · exact ⟨r1, r2, h1, h2, e1, e2, e3, e8⟩

/-! ## The end-to-end scenario and other runs on concrete inputs -/

/-- C6, counterexample: in the scenario the text of the frequency table is not
the header followed by the row `good morning,12,2`. -/
theorem scenario_row_is_not_length_12 :
    IsRangeOrder (ImportDb asciiTables ["good morning".toList]) [" good morning".toList] ∧
    scenarioRun.val?.map Report.csvText ≠
      some "chunk,length,frequency\ngood morning,12,2\n".toList := by
  decide

/-- C6, amended: in the scenario the frequency table is the header row
`chunk,length,frequency` followed by exactly one data row, `good morning,13,2`:
the chunk without its guard space, the length 13 of the chunk with its guard
space, and the frequency 2.  (The table is the same when the file holds the
text without its leading space.) -/
theorem scenario_frequency_table :
    IsRangeOrder (ImportDb asciiTables ["good morning".toList]) [" good morning".toList] ∧
    scenarioRun.val?.map Report.records =
      some [["chunk".toList, "length".toList, "frequency".toList],
            ["good morning".toList, "13".toList, "2".toList]] ∧
    scenarioRun.val?.map Report.csvText =
      some "chunk,length,frequency\ngood morning,13,2\n".toList ∧
    utf8Len " good morning".toList = 13 ∧
    Count (ToLower asciiTables (Conv (some " Good Morning, good morning!".toList)))
      " good morning".toList = 2 ∧
    (processFile asciiTables "/".toList [" good morning".toList] "input/doc.txt".toList
        (some "Good Morning, good morning!".toList)).val?.map Report.csvText =
      some "chunk,length,frequency\ngood morning,13,2\n".toList := by
  decide

/-- C7, counterexample: in the scenario the statistics do not show 5 words and
`80.00%`. -/
theorem scenario_is_not_5_words_80_percent :
    scenarioRun.val?.map (fun r => (r.chunkTotal, r.words, r.percent)) ≠
      some (4, 5, "80.00".toList) ∧
    (Fields (Conv (some " Good Morning, good morning!".toList))).length ≠ 5 ∧
    (Fields " Good Morning, good morning!".toList).length ≠ 5 := by
  decide

/-- C7, amended: in the scenario the statistics report shows chunkwords = 4
(2 words × 2 occurrences), words = 4 (the fields of the text split on runs of
white space: `Good`, `Morning,`, `good`, `morning!`) and the percentage
`100.00%`.  (The numbers are the same when the file holds the text without its
leading space.) -/
theorem scenario_statistics :
    scenarioRun.val?.map (fun r => (r.chunkTotal, r.words, r.percent)) =
      some (4, 4, "100.00".toList) ∧
    Fields (Conv (some " Good Morning, good morning!".toList)) =
      ["Good".toList, "Morning,".toList, "good".toList, "morning!".toList] ∧
    scenarioRun.val?.map Report.statText =
      some ("--------------------------------------------------------\n" ++
        "Chunk Hunter statistics for input/doc.txt\n" ++
        "--------------------------------------------------------\n\n" ++
        "Frequency: 4 chunkwords / 4 words = 100.00%\n\n" ++
        "Text checked against 1 registered combinations\n\n").toList ∧
    (processFile asciiTables "/".toList [" good morning".toList] "input/doc.txt".toList
        (some "Good Morning, good morning!".toList)).val?.map
      (fun r => (r.chunkTotal, r.words, r.percent)) = some (4, 4, "100.00".toList) := by
  decide

/-- C3: the chunk `good  morning` (two spaces) occurs once and adds 3 to the
chunkwords, the chunk `good<TAB>morning` occurs once and adds 1, while each has 2
words (fields); the statistics of the first document then show `150.00%`. -/
theorem chunkwords_count_single_space_pieces :
    (processFile asciiTables "/".toList [CleanChunks asciiTables "good  morning".toList]
        "input/doc.txt".toList (some "Good  morning".toList)).val?.map
      (fun r => (r.chunkTotal, r.words, r.percent)) = some (3, 2, "150.00".toList) ∧
    (Fields (TrimSpace (CleanChunks asciiTables "good  morning".toList))).length = 2 ∧
    (processFile asciiTables "/".toList [CleanChunks asciiTables "good\tmorning".toList]
        "input/doc.txt".toList (some "Good\tmorning".toList)).val?.map
      (fun r => (r.chunkTotal, r.words, r.percent)) = some (1, 2, "50.00".toList) ∧
    (Fields (TrimSpace (CleanChunks asciiTables "good\tmorning".toList))).length = 2 := by
  decide

/-- C10: with the dictionary line `(` and a document holding ` (`, or the line
`c++` and a document holding ` c++`, `regexp.Compile` returns an error and the
processing of the document ends in a panic: no match record, no counts. -/
theorem metacharacter_chunk_crashes :
    IsRangeOrder (ImportDb asciiTables ["(".toList]) [" (".toList] ∧
    regexpCompile "(?i) (".toList = .error ∧
    processFile asciiTables "/".toList [" (".toList] "input/doc.txt".toList
      (some "f (x)".toList) = .crash ∧
    IsRangeOrder (ImportDb asciiTables ["c++".toList]) [" c++".toList] ∧
    regexpCompile "(?i) c++".toList = .error ∧
    processFile asciiTables "/".toList [" c++".toList] "input/doc.txt".toList
      (some "I like C++".toList) = .crash := by
  decide

end ChunkHunter
